import Mathlib

/-!
A shallow embedding of the ConnectN game engine (`connect_n.h` and the
player/driver translation unit) in Lean 4, together with proofs about the
embedded operations.

Modelling conventions used throughout:
* `std::bitset<S_ROWS * S_COLS>` becomes a `Nat` whose bits are read with
  `Nat.testBit`; the bitset invariant "only the low `rows * cols` bits can
  be set" is carried as an explicit hypothesis where a proof needs it.
* C++ `int` board coordinates become `Int` (they can be negative and the
  code range-checks them), row/column extents become `Nat`.
* C++ `long` scores become `Int`; the saturation constants
  `std::numeric_limits<long>::max() / min()` become the explicit values
  `2^63 - 1` and `-2^63`.  No other arithmetic in the evaluator can reach
  those magnitudes, so no wrap-around modelling is needed elsewhere.
* Member functions that mutate the board and return `bool` (`operator<<`,
  `operator>>`) become functions `Board → Move → Option Board`: `some b'`
  for `return true` with the mutated board, `none` for `return false`
  (every `return false` in the source happens before any mutation).
* A read of `std::vector::back()` / `operator[]` whose precondition
  (non-emptiness) fails is undefined behaviour in C++; the embedding
  returns `none` at exactly those program points.
-/

namespace ConnectN

/-- `enum class Tile : int8_t { Negative = -1, Empty = 0, Positive = 1 }`. -/
inductive Tile where
  | Negative : Tile
  | Empty : Tile
  | Positive : Tile
deriving DecidableEq, Repr, Inhabited

/-- The signed integer value of a tile (`static_cast<long>(tile)`). -/
def Tile.val : Tile → Int
  | .Negative => -1
  | .Empty => 0
  | .Positive => 1

/-- `getEnemyTile` from `connect_n.h`. -/
def getEnemyTile : Tile → Tile
  | .Negative => .Positive
  | .Positive => .Negative
  | .Empty => .Empty

/-- `struct Vec2i { int x; int y; }`. -/
structure Vec2i where
  x : Int
  y : Int
deriving DecidableEq, Repr, Inhabited

/-- `Vec2i::operator+`. -/
def Vec2i.add (a b : Vec2i) : Vec2i := ⟨a.x + b.x, a.y + b.y⟩

/-- `Vec2i::operator-` (unary negation). -/
def Vec2i.negate (a : Vec2i) : Vec2i := ⟨-a.x, -a.y⟩

/-- `Vec2i::operator*(int c)`. -/
def Vec2i.smul (a : Vec2i) (c : Int) : Vec2i := ⟨a.x * c, a.y * c⟩

/-- `struct Move { Vec2i pos; Tile tile; }`.  The C++ default-initialised
`Move{}` has `pos = {0, 0}` and `tile = Tile(0) = Empty`. -/
structure Move where
  pos : Vec2i
  tile : Tile
deriving DecidableEq, Repr, Inhabited

/-- `Board<S_ROWS, S_COLS>`: the two colour bitsets plus the shape, with the
connection length fixed at `connectN = 4` as in the source (`const int
connectN{4}`).  Each bitset is a `Nat` addressed by `row * cols + col`. -/
structure Board where
  rows : Nat
  cols : Nat
  positivePieces : Nat
  negativePieces : Nat
deriving DecidableEq, Repr, Inhabited

/-- `Board::connectN` — the connection length, a constant 4 in the source. -/
def connectN : Nat := 4

/-- `Board::isValidPosition`. -/
def Board.isValidPosition (b : Board) (pos : Vec2i) : Bool :=
  !(pos.x < 0 || pos.x ≥ (b.cols : Int) || pos.y < 0 || pos.y ≥ (b.rows : Int))

/-- `Board::index`: `pos.y * m_shape.cols + pos.x` (only ever used on valid
positions, where the value is non-negative). -/
def Board.index (b : Board) (pos : Vec2i) : Nat :=
  (pos.y * (b.cols : Int) + pos.x).toNat

/-- `Board::operator[]`: `none` models the disengaged `std::optional`. -/
def Board.getCell (b : Board) (pos : Vec2i) : Option Tile :=
  if ¬ b.isValidPosition pos then
    none
  else if b.positivePieces.testBit (b.index pos) then
    some .Positive
  else if b.negativePieces.testBit (b.index pos) then
    some .Negative
  else
    some .Empty

/-- `Board::operator<<` (placement).  `some b'` models `return true` after the
mutation, `none` models `return false` (which in the source always happens
before any mutation). -/
def Board.place (b : Board) (move : Move) : Option Board :=
  if ¬ b.isValidPosition move.pos then
    none
  else
    let below : Vec2i := ⟨move.pos.x, move.pos.y + 1⟩
    if move.pos.y + 1 ≠ (b.rows : Int) ∧ b.getCell below = some .Empty then
      none
    else
      match move.tile with
      | .Positive =>
          some { b with positivePieces := b.positivePieces ||| (1 <<< b.index move.pos) }
      | .Negative =>
          some { b with negativePieces := b.negativePieces ||| (1 <<< b.index move.pos) }
      | .Empty => none

/-- The complement mask `~(1 << i)` of a `std::bitset<S>`: all ones on the low
`S` bits except bit `i`. -/
def notMask (S i : Nat) : Nat := (2 ^ S - 1) ^^^ (1 <<< i)

/-- `Board::operator>>` (removal). -/
def Board.remove (b : Board) (move : Move) : Option Board :=
  if ¬ b.isValidPosition move.pos then
    none
  else
    match move.tile with
    | .Positive =>
        some { b with positivePieces :=
          b.positivePieces &&& notMask (b.rows * b.cols) (b.index move.pos) }
    | .Negative =>
        some { b with negativePieces :=
          b.negativePieces &&& notMask (b.rows * b.cols) (b.index move.pos) }
    | .Empty => none

/-- One iteration of the column loop of `generateValidPositions` (the body
of `for (int x{0}; x < boardShape.cols; ++x)`): `none` models the source
calling `res.back()` on an empty vector (undefined behaviour). -/
def genStep (b : Board) (res : List Vec2i) (x : Nat) : Option (List Vec2i) :=
  if b.getCell ⟨(x : Int), 0⟩ ≠ some .Empty then
    some res
  else
    let res1 : List Vec2i :=
      match (List.range' 1 (b.rows - 1)).find?
          (fun (lvl : Nat) => decide (b.getCell ⟨(x : Int), (lvl : Int)⟩ ≠ some .Empty)) with
      | some lvl => res ++ [(⟨(x : Int), (lvl : Int) - 1⟩ : Vec2i)]
      | none => res
    match res1.getLast? with
    | none => none
    | some last =>
        some (if last.x ≠ (x : Int) then
          res1 ++ [(⟨(x : Int), (b.rows : Int) - 1⟩ : Vec2i)] else res1)

/-- `generateValidPositions`.  The result is `none` exactly when the source
would call `res.back()` on an empty vector (undefined behaviour: the first
column that is scanned and found entirely empty before anything was pushed). -/
def generateValidPositions (b : Board) : Option (List Vec2i) :=
  (List.range b.cols).foldlM (genStep b) []

/-- The four direction axes scanned by both `evaluate` overloads. -/
def directions : List Vec2i := [⟨1, 0⟩, ⟨0, 1⟩, ⟨1, -1⟩, ⟨1, 1⟩]

/-- The loop body of the `check` lambda shared by both `evaluate` overloads:
starting at step `i`, walk `p + d*i, p + d*(i+1), …` while the cell is in
bounds and holds `lastTile`, counting the steps; `fuel` is the number of loop
iterations left (`N - i`). -/
def checkGo (b : Board) (p d : Vec2i) (lastTile : Tile) : Nat → Nat → Nat
  | _, 0 => 0
  | i, fuel + 1 =>
    if (p.add (d.smul (i : Int))).x < 0 ∨ (p.add (d.smul (i : Int))).x ≥ (b.cols : Int) ∨
        (p.add (d.smul (i : Int))).y < 0 ∨ (p.add (d.smul (i : Int))).y ≥ (b.rows : Int) then 0
    else if b.getCell (p.add (d.smul (i : Int))) ≠ some lastTile then 0
    else 1 + checkGo b p d lastTile (i + 1) fuel

/-- The `check` lambda: `for (i = 1; i < N; ++i)`, so `N - 1` iterations
starting at `i = 1`. -/
def check (b : Board) (p d : Vec2i) (lastTile : Tile) : Nat :=
  checkGo b p d lastTile 1 (connectN - 1)

/-- `std::numeric_limits<long>::max()`. -/
def longMax : Int := 2 ^ 63 - 1

/-- `std::numeric_limits<long>::min()`. -/
def longMin : Int := -(2 ^ 63)

/-- The saturated score paired with a winning tile by `evaluate`. -/
def satScore : Tile → Int
  | .Positive => longMax
  | _ => longMin

/-- The per-cell direction loop of `evaluate`: either an early `return` with
the winning tile (`Sum.inl`) or the updated running score (`Sum.inr`). -/
def dirScan (b : Board) (p : Vec2i) (lastTile : Tile) : List Vec2i → Int → Tile ⊕ Int
  | [], score => .inr score
  | d :: ds, score =>
    if connectN ≤ 1 + check b p d lastTile then .inl lastTile
    else if connectN ≤ 1 + check b p d lastTile + check b p d.negate lastTile then
      .inl lastTile
    else dirScan b p lastTile ds
      (score + 10 ^ (1 + check b p d lastTile + check b p d.negate lastTile) * lastTile.val)

/-- The double loop of the whole-board `evaluate` over all cells (row-major,
`y` outer), with the early `return` threaded as `Sum.inl`. -/
def cellScan (b : Board) : List (Nat × Nat) → Int → Tile ⊕ Int
  | [], score => .inr score
  | (x, y) :: rest, score =>
    match b.getCell ⟨(x : Int), (y : Int)⟩ with
    | none => cellScan b rest score
    | some t =>
      if t = .Empty then cellScan b rest score
      else
        match dirScan b ⟨(x : Int), (y : Int)⟩ t directions score with
        | .inl w => .inl w
        | .inr s => cellScan b rest s

/-- The row-major cell enumeration of the whole-board `evaluate`. -/
def allCells (b : Board) : List (Nat × Nat) :=
  (List.range b.rows).flatMap (fun y => (List.range b.cols).map (fun x => (x, y)))

/-- The draw check shared by both `evaluate` overloads: the whole top row is
occupied. -/
def isDrawnTop (b : Board) : Bool :=
  (List.range b.cols).all (fun i => decide (b.getCell ⟨(i : Int), 0⟩ ≠ some .Empty))

/-- Whole-board `evaluate(board)`: `(terminal result, heuristic score)`. -/
def evaluate (b : Board) : Option Int × Int :=
  match cellScan b (allCells b) 0 with
  | .inl w => (some w.val, satScore w)
  | .inr score => if isDrawnTop b then (some 0, 0) else (none, score)

/-- Incremental `evaluate(board, lastPosition)`. -/
def evaluateLast (b : Board) (lastPosition : Vec2i) : Option Int × Int :=
  match b.getCell lastPosition with
  | none => (none, 0)
  | some .Empty => (none, 0)
  | some t =>
    match dirScan b lastPosition t directions 0 with
    | .inl w => (some w.val, satScore w)
    | .inr score => if isDrawnTop b then (some 0, 0) else (none, score)

/-- `Game`'s state: the authoritative board, the game-over flag and the
current-player pointer (which is always one of the two registered players,
modelled as `true` ↔ `playerPositive`). -/
structure GameState where
  board : Board
  isGameOver : Bool
  currentIsPositive : Bool
deriving DecidableEq, Repr

/-- `Game::makeMove`, with the agent's `getNextMove` result passed in as an
argument.  Returns the new state and the returned `optional<long>`. -/
def makeMove (g : GameState) (newMove : Move) : GameState × Option Int :=
  if g.isGameOver = false then
    match g.board.place newMove with
    | some b' =>
        ({ g with board := b', currentIsPositive := !g.currentIsPositive },
          (evaluateLast b' newMove.pos).1)
    | none => (g, (evaluate g.board).1)
  else (g, (evaluate g.board).1)

/-- The C++ value-initialised `Move{}`: position `{0, 0}`, tile `Tile(0) =
Empty`. -/
def cppDefaultMove : Move := ⟨⟨0, 0⟩, .Empty⟩

/-- The maximising branch of the move loop in `MinimaxPlayer::alphabeta`.
State threaded through the loop: remaining positions, the (mutated and
restored) board, `maxValue`, `resultMove`, `alpha`; `recurse` is the
depth-decremented recursive call. -/
def abMaxLoop (recurse : Board → Int → Int → Option (Int × Move)) (t : Tile)
    (beta : Int) : List Vec2i → Board → Int → Move → Int → Option (Int × Move)
  | [], _, maxValue, resultMove, _ => some (maxValue, resultMove)
  | p :: ps, b, maxValue, resultMove, alpha =>
    let m : Move := ⟨p, t⟩
    let b1 := (b.place m).getD b
    match recurse b1 alpha beta with
    | none => none
    | some res =>
      let b2 := (b1.remove m).getD b1
      let maxValue' := if res.1 > maxValue then res.1 else maxValue
      let resultMove' := if res.1 > maxValue then m else resultMove
      let alpha' := max alpha res.1
      if beta ≤ alpha' then some (maxValue', resultMove')
      else abMaxLoop recurse t beta ps b2 maxValue' resultMove' alpha'

/-- The minimising branch of the move loop in `MinimaxPlayer::alphabeta`. -/
def abMinLoop (recurse : Board → Int → Int → Option (Int × Move)) (t : Tile)
    (alpha : Int) : List Vec2i → Board → Int → Move → Int → Option (Int × Move)
  | [], _, minValue, resultMove, _ => some (minValue, resultMove)
  | p :: ps, b, minValue, resultMove, beta =>
    let m : Move := ⟨p, t⟩
    let b1 := (b.place m).getD b
    match recurse b1 alpha beta with
    | none => none
    | some res =>
      let b2 := (b1.remove m).getD b1
      let minValue' := if res.1 < minValue then res.1 else minValue
      let resultMove' := if res.1 < minValue then m else resultMove
      let beta' := min beta res.1
      if beta' ≤ alpha then some (minValue', resultMove')
      else abMinLoop recurse t alpha ps b2 minValue' resultMove' beta'

/-- `MinimaxPlayer::alphabeta` (the unused `lastMove` parameter of the source
is dropped).  `none` models the undefined accesses `positions[0]` /
`res.back()` on an empty vector, which cannot occur on the boards reached in
a run whose move generation stays defined. -/
def alphabeta (mTile mEnemyTile : Tile) :
    Nat → Board → Int → Int → Bool → Option (Int × Move)
  | 0, b, _, _, _ => some ((evaluate b).2, cppDefaultMove)
  | d + 1, b, alpha, beta, isEnemy =>
    let ev := evaluate b
    if (ev.1).isSome then some (ev.2, cppDefaultMove)
    else
      match generateValidPositions b with
      | none => none
      | some positions =>
        match positions with
        | [] => none
        | p0 :: _ =>
          let currentTile := if isEnemy then mEnemyTile else mTile
          let isMaximising := if mTile = .Positive then !isEnemy else isEnemy
          let resultMove0 : Move := ⟨p0, currentTile⟩
          if isMaximising then
            abMaxLoop (fun b' a' b'' => alphabeta mTile mEnemyTile d b' a' b'' (!isEnemy))
              currentTile beta positions b longMin resultMove0 alpha
          else
            abMinLoop (fun b' a' b'' => alphabeta mTile mEnemyTile d b' a' b'' (!isEnemy))
              currentTile alpha positions b longMax resultMove0 beta

/-- `MinimaxPlayer::getNextMove`: run `alphabeta` on a copy of the board with
the full `(LONG_MIN, LONG_MAX)` window and `isEnemy = false`. -/
def minimaxGetNextMove (mTile mEnemyTile : Tile) (depth : Nat) (b : Board) :
    Option Move :=
  (alphabeta mTile mEnemyTile depth b longMin longMax false).map (·.2)

/-! ## Helper definitions and lemmas shared by the claim theorems -/

/-- The bitset belonging to a colour (helper for stating claims about the
two bitsets; `Empty` is mapped to the negative set, matching the fact that
neither `operator<<` nor `operator>>` ever touches a bitset for `Empty`). -/
def colorBits (b : Board) : Tile → Nat
  | .Positive => b.positivePieces
  | _ => b.negativePieces

theorem isValidPosition_iff (b : Board) (pos : Vec2i) :
    b.isValidPosition pos = true ↔
      0 ≤ pos.x ∧ pos.x < (b.cols : Int) ∧ 0 ≤ pos.y ∧ pos.y < (b.rows : Int) := by
  simp only [Board.isValidPosition, Bool.not_eq_true', Bool.or_eq_false_iff,
    decide_eq_false_iff_not, not_lt, not_le]
  omega

theorem index_lt_of_valid (b : Board) (pos : Vec2i)
    (h : b.isValidPosition pos = true) : b.index pos < b.rows * b.cols := by
  rw [isValidPosition_iff] at h
  obtain ⟨hx0, hxc, hy0, hyr⟩ := h
  have hy1 : pos.y ≤ (b.rows : Int) - 1 := by omega
  have h2 : pos.y * (b.cols : Int) ≤ ((b.rows : Int) - 1) * (b.cols : Int) :=
    mul_le_mul_of_nonneg_right hy1 (by positivity)
  have h3 : ((b.rows : Int) - 1) * (b.cols : Int) =
      (b.rows : Int) * (b.cols : Int) - (b.cols : Int) := by ring
  have hcast : ((b.rows * b.cols : Nat) : Int) = (b.rows : Int) * (b.cols : Int) := by
    push_cast; ring
  have h4 : pos.y * (b.cols : Int) + pos.x < (b.rows : Int) * (b.cols : Int) := by
    linarith
  have h5 : 0 < (b.rows : Int) * (b.cols : Int) := mul_pos (by omega) (by omega)
  unfold Board.index
  omega

/-- Setting a clear bit with `|=` and then clearing it with `&= ~mask`
restores the original bitset, provided the bitset respects its width. -/
theorem lor_land_notMask (S i n : Nat) (hiS : i < S) (hn : n < 2 ^ S)
    (hbit : n.testBit i = false) :
    (n ||| 1 <<< i) &&& notMask S i = n := by
  apply Nat.eq_of_testBit_eq
  intro j
  rw [Nat.testBit_land, Nat.testBit_lor, notMask, Nat.testBit_xor,
    Nat.one_shiftLeft, Nat.testBit_two_pow_sub_one, Nat.testBit_two_pow]
  by_cases hj : j = i
  · subst hj
    simp [hbit, hiS]
  · have hij : ¬ i = j := fun h => hj h.symm
    by_cases hjS : j < S
    · simp [hjS, hij]
    · have hnj : n.testBit j = false :=
        Nat.testBit_eq_false_of_lt
          (lt_of_lt_of_le hn (Nat.pow_le_pow_right (by norm_num) (by omega)))
      simp [hnj, hjS, hij]

/-- Explicit success/effect characterisation of `Board.place`. -/
theorem place_eq_some_iff (b : Board) (m : Move) (b' : Board) :
    b.place m = some b' ↔
      b.isValidPosition m.pos = true ∧
      ¬(m.pos.y + 1 ≠ (b.rows : Int) ∧
        b.getCell ⟨m.pos.x, m.pos.y + 1⟩ = some .Empty) ∧
      ((m.tile = .Positive ∧
          b' = { b with positivePieces := b.positivePieces ||| 1 <<< b.index m.pos }) ∨
        (m.tile = .Negative ∧
          b' = { b with negativePieces := b.negativePieces ||| 1 <<< b.index m.pos })) := by
  unfold Board.place
  by_cases hv : b.isValidPosition m.pos
  · by_cases hs : (m.pos.y + 1 ≠ (b.rows : Int) ∧
        b.getCell ⟨m.pos.x, m.pos.y + 1⟩ = some .Empty)
    · simp [hv, hs]
    · cases htile : m.tile <;> simp [hv, hs, htile] <;> exact comm
  · simp [hv]

/-! ## C1: place followed by remove of the same move -/

/-- The board used to refute C1: a single Positive piece at `(0, 5)` on the
6×7 board (bit `5*7+0 = 35`). -/
def bC1 : Board := ⟨6, 7, 1 <<< 35, 0⟩

/-- The move used to refute C1: Positive at `(0, 5)`, a cell that already
holds a Positive piece. -/
def mC1 : Move := ⟨⟨0, 5⟩, .Positive⟩

/-- **C1, counterexample.**  Placing a Positive tile onto a cell whose
Positive bit is already set succeeds (`operator<<` only `OR`s the mask in),
but the subsequent `operator>>` clears the bit, so the round trip does not
restore the prior board. -/
theorem place_remove_roundtrip_cex :
    (bC1.place mC1).isSome = true ∧
    ((bC1.place mC1).bind (fun b2 => b2.remove mC1)) ≠ some bC1 := by decide

/-- **C1, amended.**  If the placement succeeds *and* the placed colour's bit
at the move's position was clear beforehand (in particular whenever the
target cell is empty or holds only the opposite colour), then removing the
same move restores the board bit-for-bit.  The two width hypotheses are the
`std::bitset` invariant that only the low `rows*cols` bits can be set. -/
theorem place_remove_roundtrip_amended (b : Board) (m : Move) (b' : Board)
    (hpos : b.positivePieces < 2 ^ (b.rows * b.cols))
    (hneg : b.negativePieces < 2 ^ (b.rows * b.cols))
    (hclear : (colorBits b m.tile).testBit (b.index m.pos) = false)
    (hplace : b.place m = some b') :
    b'.remove m = some b := by
  rcases (place_eq_some_iff b m b').1 hplace with ⟨hv, _, hcase⟩
  have hidx := index_lt_of_valid b m.pos hv
  rcases hcase with ⟨ht, rfl⟩ | ⟨ht, rfl⟩
  · unfold Board.remove
    simp only [Board.isValidPosition, Board.index] at hv ⊢
    simp only [hv, not_true_eq_false, if_false, ht]
    have := lor_land_notMask (b.rows * b.cols) (b.index m.pos) b.positivePieces
      hidx hpos (by simpa [colorBits, ht] using hclear)
    simp only [Board.index] at this
    simp [this]
  · unfold Board.remove
    simp only [Board.isValidPosition, Board.index] at hv ⊢
    simp only [hv, not_true_eq_false, if_false, ht]
    have := lor_land_notMask (b.rows * b.cols) (b.index m.pos) b.negativePieces
      hidx hneg (by simpa [colorBits, ht] using hclear)
    simp only [Board.index] at this
    simp [this]

/-- Witness for the amended C1 at a concrete input. -/
theorem place_remove_roundtrip_amended_witness :
    Board.remove ⟨6, 7, 1 <<< 35, 0⟩ ⟨⟨0, 5⟩, .Positive⟩ = some ⟨6, 7, 0, 0⟩ :=
  place_remove_roundtrip_amended ⟨6, 7, 0, 0⟩ ⟨⟨0, 5⟩, .Positive⟩ ⟨6, 7, 1 <<< 35, 0⟩
    (by decide) (by decide) (by decide) (by decide)

/-! ## C5: full characterisation of the placement operation -/

/-- **C5.**  `operator<<` succeeds exactly when the position is inside the
grid, the move is supported (bottom row, or the cell directly below is
occupied), and the tile is Positive or Negative; on success it sets exactly
the one bit of the corresponding colour's bitset (failure returns `none`,
which models `return false` before any mutation in the source). -/
theorem place_success_characterisation (b : Board) (m : Move) :
    ((b.place m).isSome = true ↔
      (b.isValidPosition m.pos = true ∧
        (m.pos.y + 1 = (b.rows : Int) ∨
          b.getCell ⟨m.pos.x, m.pos.y + 1⟩ ≠ some .Empty) ∧
        (m.tile = .Positive ∨ m.tile = .Negative))) ∧
    (∀ b', b.place m = some b' →
      (m.tile = .Positive →
        b' = { b with positivePieces := b.positivePieces ||| 1 <<< b.index m.pos }) ∧
      (m.tile = .Negative →
        b' = { b with negativePieces := b.negativePieces ||| 1 <<< b.index m.pos })) := by
  constructor
  · rw [Option.isSome_iff_exists]
    constructor
    · rintro ⟨b', hb'⟩
      rcases (place_eq_some_iff b m b').1 hb' with ⟨hv, hs, hcase⟩
      refine ⟨hv, by tauto, ?_⟩
      rcases hcase with ⟨ht, _⟩ | ⟨ht, _⟩ <;> tauto
    · rintro ⟨hv, hs, ht | ht⟩
      · exact ⟨_, (place_eq_some_iff b m _).2 ⟨hv, by tauto, Or.inl ⟨ht, rfl⟩⟩⟩
      · exact ⟨_, (place_eq_some_iff b m _).2 ⟨hv, by tauto, Or.inr ⟨ht, rfl⟩⟩⟩
  · intro b' hb'
    rcases (place_eq_some_iff b m b').1 hb' with ⟨_, _, hcase⟩
    constructor
    · intro ht
      rcases hcase with ⟨_, h⟩ | ⟨ht', _⟩
      · exact h
      · rw [ht] at ht'; cases ht'
    · intro ht
      rcases hcase with ⟨ht', _⟩ | ⟨_, h⟩
      · rw [ht] at ht'; cases ht'
      · exact h

/-- Witness for C5 at a concrete input: dropping a Positive tile on the empty
bottom row succeeds. -/
theorem place_success_characterisation_witness :
    (Board.place ⟨6, 7, 0, 0⟩ ⟨⟨3, 5⟩, .Positive⟩).isSome = true :=
  (place_success_characterisation ⟨6, 7, 0, 0⟩ ⟨⟨3, 5⟩, .Positive⟩).1.mpr (by decide)

/-! ## C4: the board invariants and their preservation by placement -/

/-- No cell has both the Positive and the Negative bit set. -/
def NoOverlap (b : Board) : Prop :=
  ∀ i < b.rows * b.cols,
    ¬(b.positivePieces.testBit i = true ∧ b.negativePieces.testBit i = true)

/-- Every cell below an occupied cell in the same column is occupied
(row 0 is the top, larger row indices are lower). -/
def GravityOk (b : Board) : Prop :=
  ∀ x < b.cols, ∀ y' < b.rows, ∀ y < y',
    b.getCell ⟨(x : Int), (y : Int)⟩ ≠ some .Empty →
    b.getCell ⟨(x : Int), (y' : Int)⟩ ≠ some .Empty

instance instDecNoOverlap (b : Board) : Decidable (NoOverlap b) := by
  unfold NoOverlap; infer_instance

instance instDecGravityOk (b : Board) : Decidable (GravityOk b) := by
  unfold GravityOk; infer_instance

theorem grid_index_inj {cols x y x' y' : Nat} (hx : x < cols) (hx' : x' < cols)
    (h : y * cols + x = y' * cols + x') : x = x' ∧ y = y' := by
  rcases Nat.lt_trichotomy y y' with hlt | heq | hgt
  · exfalso
    have e1 : (y + 1) * cols = y * cols + cols := by ring
    have e2 : (y + 1) * cols ≤ y' * cols := mul_le_mul_right' hlt cols
    omega
  · subst heq; omega
  · exfalso
    have e1 : (y' + 1) * cols = y' * cols + cols := by ring
    have e2 : (y' + 1) * cols ≤ y * cols := mul_le_mul_right' hgt cols
    omega

theorem index_inj (b : Board) {p q : Vec2i} (hp : b.isValidPosition p = true)
    (hq : b.isValidPosition q = true) (h : b.index p = b.index q) : p = q := by
  rw [isValidPosition_iff] at hp hq
  obtain ⟨hpx0, hpxc, hpy0, hpyr⟩ := hp
  obtain ⟨hqx0, hqxc, hqy0, hqyr⟩ := hq
  unfold Board.index at h
  have hpx : p.x = (p.x.toNat : Int) := by omega
  have hpy : p.y = (p.y.toNat : Int) := by omega
  have hqx : q.x = (q.x.toNat : Int) := by omega
  have hqy : q.y = (q.y.toNat : Int) := by omega
  have e1 : p.y * (b.cols : Int) + p.x =
      ((p.y.toNat * b.cols + p.x.toNat : Nat) : Int) := by
    conv_lhs => rw [hpy, hpx]
    push_cast; ring
  have e2 : q.y * (b.cols : Int) + q.x =
      ((q.y.toNat * b.cols + q.x.toNat : Nat) : Int) := by
    conv_lhs => rw [hqy, hqx]
    push_cast; ring
  rw [e1, e2] at h
  have h2 : p.y.toNat * b.cols + p.x.toNat = q.y.toNat * b.cols + q.x.toNat := by
    exact_mod_cast h
  obtain ⟨ex, ey⟩ := grid_index_inj (by omega) (by omega) h2
  have hxx : p.x = q.x := by omega
  have hyy : p.y = q.y := by omega
  rcases p with ⟨px, py⟩
  rcases q with ⟨qx, qy⟩
  simp only [Vec2i.mk.injEq]
  exact ⟨hxx, hyy⟩

theorem getCell_eq_empty_iff (b : Board) (p : Vec2i) :
    b.getCell p = some .Empty ↔
      b.isValidPosition p = true ∧
      b.positivePieces.testBit (b.index p) = false ∧
      b.negativePieces.testBit (b.index p) = false := by
  unfold Board.getCell
  by_cases hv : b.isValidPosition p
  · by_cases hp : b.positivePieces.testBit (b.index p) <;>
      by_cases hn : b.negativePieces.testBit (b.index p) <;>
      simp [hv, hp, hn]
  · simp [hv]

theorem getCell_posUpdate (b : Board) (P : Nat) (p : Vec2i) :
    Board.getCell { b with positivePieces := P } p =
      if ¬ b.isValidPosition p then none
      else if P.testBit (b.index p) then some .Positive
      else if b.negativePieces.testBit (b.index p) then some .Negative
      else some .Empty := rfl

theorem getCell_negUpdate (b : Board) (P : Nat) (p : Vec2i) :
    Board.getCell { b with negativePieces := P } p =
      if ¬ b.isValidPosition p then none
      else if b.positivePieces.testBit (b.index p) then some .Positive
      else if P.testBit (b.index p) then some .Negative
      else some .Empty := rfl

/-- How `operator[]` reads a board after a successful placement onto a cell
that was empty: the placed cell now shows the placed tile, every other
position reads as before. -/
theorem getCell_place_of_empty (b : Board) (m : Move) (b' : Board)
    (hempty : b.getCell m.pos = some .Empty)
    (hplace : b.place m = some b') (p : Vec2i) :
    b'.getCell p = if p = m.pos then some m.tile else b.getCell p := by
  rcases (place_eq_some_iff b m b').1 hplace with ⟨hv, _, hcase⟩
  rcases (getCell_eq_empty_iff b m.pos).1 hempty with ⟨_, hpb, hnb⟩
  have honebit : ∀ q : Vec2i, b.isValidPosition q = true → q ≠ m.pos →
      (1 <<< b.index m.pos).testBit (b.index q) = false := by
    intro q hvq hqm
    rw [Nat.one_shiftLeft]
    exact Nat.testBit_two_pow_of_ne
      (fun hh => hqm (index_inj b hvq hv hh.symm))
  rcases hcase with ⟨ht, rfl⟩ | ⟨ht, rfl⟩
  · rw [getCell_posUpdate]
    by_cases hvp : b.isValidPosition p
    · by_cases hpm : p = m.pos
      · subst hpm
        rw [if_pos rfl, if_neg (by simp [hvp]), Nat.testBit_lor,
          Nat.one_shiftLeft, Nat.testBit_two_pow_self, Bool.or_true, if_pos rfl, ht]
      · rw [if_neg hpm, Nat.testBit_lor, honebit p hvp hpm, Bool.or_false]
        unfold Board.getCell
        rw [if_neg (by simp [hvp])]
    · have hpm : p ≠ m.pos := fun hh => hvp (hh ▸ hv)
      rw [if_neg hpm, if_pos (by simp [hvp])]
      unfold Board.getCell
      rw [if_pos (by simp [hvp])]
  · rw [getCell_negUpdate]
    by_cases hvp : b.isValidPosition p
    · by_cases hpm : p = m.pos
      · subst hpm
        rw [if_pos rfl, if_neg (by simp [hvp]), hpb, if_neg (by simp),
          Nat.testBit_lor, Nat.one_shiftLeft, Nat.testBit_two_pow_self,
          Bool.or_true, if_pos rfl, ht]
      · rw [if_neg hpm, Nat.testBit_lor, honebit p hvp hpm, Bool.or_false]
        unfold Board.getCell
        rw [if_neg (by simp [hvp])]
    · have hpm : p ≠ m.pos := fun hh => hvp (hh ▸ hv)
      rw [if_neg hpm, if_pos (by simp [hvp])]
      unfold Board.getCell
      rw [if_pos (by simp [hvp])]

/-- The board used to refute C4: a single Negative piece at `(0, 5)`; both
invariants hold for it. -/
def bC4 : Board := ⟨6, 7, 0, 1 <<< 35⟩

/-- The move used to refute C4: Positive dropped onto the occupied `(0, 5)`
(the placement does not check that the target cell is empty). -/
def mC4 : Move := ⟨⟨0, 5⟩, .Positive⟩

/-- **C4, counterexample.**  Starting from a board satisfying both
invariants, `operator<<` accepts a Positive move onto a cell already holding
a Negative piece (it only checks range and support), and the resulting board
has a cell with both colour bits set. -/
theorem place_invariants_cex :
    NoOverlap bC4 ∧ GravityOk bC4 ∧
    bC4.place mC4 = some ⟨6, 7, 1 <<< 35, 1 <<< 35⟩ ∧
    ¬ NoOverlap ⟨6, 7, 1 <<< 35, 1 <<< 35⟩ := by
  refine ⟨by decide, by decide, by decide, by decide⟩

/-- **C4, amended.**  If additionally the target cell is empty, a successful
placement preserves both invariants: no cell holds both colours, and every
occupied cell is supported from below. -/
theorem place_preserves_invariants (b : Board) (m : Move) (b' : Board)
    (hno : NoOverlap b) (hgr : GravityOk b)
    (hempty : b.getCell m.pos = some .Empty)
    (hplace : b.place m = some b') :
    NoOverlap b' ∧ GravityOk b' := by
  have hiff := (place_eq_some_iff b m b').1 hplace
  rcases hiff with ⟨hv, hsup, hcase⟩
  rcases (getCell_eq_empty_iff b m.pos).1 hempty with ⟨_, hpb, hnb⟩
  have hcell := getCell_place_of_empty b m b' hempty hplace
  have htile : m.tile ≠ .Empty := by
    rcases hcase with ⟨ht, _⟩ | ⟨ht, _⟩ <;> simp [ht]
  constructor
  · -- NoOverlap is preserved
    intro i hi
    rintro ⟨h1, h2⟩
    rcases hcase with ⟨ht, rfl⟩ | ⟨ht, rfl⟩
    · simp only [Nat.testBit_lor, Bool.or_eq_true] at h1
      rcases h1 with h1 | h1
      · exact hno i hi ⟨h1, h2⟩
      · rw [Nat.one_shiftLeft] at h1
        have hidx : b.index m.pos = i := by
          by_contra hne
          rw [Nat.testBit_two_pow_of_ne hne] at h1
          cases h1
        rw [← hidx] at h2
        rw [h2] at hnb
        cases hnb
    · simp only [Nat.testBit_lor, Bool.or_eq_true] at h2
      rcases h2 with h2 | h2
      · exact hno i hi ⟨h1, h2⟩
      · rw [Nat.one_shiftLeft] at h2
        have hidx : b.index m.pos = i := by
          by_contra hne
          rw [Nat.testBit_two_pow_of_ne hne] at h2
          cases h2
        rw [← hidx] at h1
        rw [h1] at hpb
        cases hpb
  · -- GravityOk is preserved
    have hshape : b'.rows = b.rows ∧ b'.cols = b.cols := by
      rcases hcase with ⟨_, rfl⟩ | ⟨_, rfl⟩ <;> exact ⟨rfl, rfl⟩
    intro x hx y' hy' y hyy' hocc
    rw [hshape.1] at hy'
    rw [hshape.2] at hx
    rw [hcell ⟨(x : Int), (y : Int)⟩] at hocc
    rw [hcell ⟨(x : Int), (y' : Int)⟩]
    by_cases hym : (⟨(x : Int), (y : Int)⟩ : Vec2i) = m.pos
    · -- the newly placed cell: its support comes from the placement's check
      have hmy : m.pos.y = (y : Int) := by rw [← hym]
      have hmx : m.pos.x = (x : Int) := by rw [← hym]
      have hy'm : (⟨(x : Int), (y' : Int)⟩ : Vec2i) ≠ m.pos := by
        intro hh
        have h1 : ((y' : Nat) : Int) = m.pos.y := congrArg Vec2i.y hh
        omega
      rw [if_neg hy'm]
      rcases Decidable.not_and_iff_or_not.1 hsup with hbot | hbelow
      · have hbot' : m.pos.y + 1 = (b.rows : Int) := Decidable.not_not.1 hbot
        exfalso
        omega
      · have hbocc : b.getCell ⟨m.pos.x, m.pos.y + 1⟩ ≠ some .Empty :=
          fun hh => hbelow hh
        have ey1 : m.pos.y + 1 = ((y + 1 : Nat) : Int) := by omega
        have hbelow_eq : (⟨m.pos.x, m.pos.y + 1⟩ : Vec2i) =
            ⟨(x : Int), ((y + 1 : Nat) : Int)⟩ := by
          rw [hmx, ey1]
        rw [hbelow_eq] at hbocc
        by_cases hy1 : y' = y + 1
        · subst hy1
          exact hbocc
        · have hy1lt : y + 1 < y' := by omega
          have hy1r : y + 1 < b.rows := by omega
          exact hgr x hx y' hy' (y + 1) hy1lt hbocc
    · rw [if_neg hym] at hocc
      have hb : b.getCell ⟨(x : Int), (y' : Int)⟩ ≠ some .Empty :=
        hgr x hx y' hy' y hyy' hocc
      by_cases hy'm : (⟨(x : Int), (y' : Int)⟩ : Vec2i) = m.pos
      · rw [if_pos hy'm]
        simp [htile]
      · rw [if_neg hy'm]
        exact hb

/-- Witness for the amended C4 at a concrete input: dropping Positive at
`(3, 5)` on the empty board keeps both invariants. -/
theorem place_preserves_invariants_witness :
    NoOverlap ⟨6, 7, 1 <<< 38, 0⟩ ∧ GravityOk ⟨6, 7, 1 <<< 38, 0⟩ :=
  place_preserves_invariants ⟨6, 7, 0, 0⟩ ⟨⟨3, 5⟩, .Positive⟩ ⟨6, 7, 1 <<< 38, 0⟩
    (by decide) (by decide) (by decide) (by decide)

/-! ## C2 and C3: the move generator -/

/-- The drop target the source computes for an open column `x`: the cell just
above the topmost occupied cell, or the bottom row if the column is empty
(this is the value `generateValidPositions` pushes for `x`). -/
def dropTarget (b : Board) (x : Nat) : Vec2i :=
  match (List.range' 1 (b.rows - 1)).find?
      (fun (lvl : Nat) => decide (b.getCell ⟨(x : Int), (lvl : Int)⟩ ≠ some .Empty)) with
  | some lvl => ⟨(x : Int), (lvl : Int) - 1⟩
  | none => ⟨(x : Int), (b.rows : Int) - 1⟩

/-- The closed form of the generator's result: one drop target per column
whose top cell is empty, in column order. -/
def specPositions (b : Board) : List Vec2i :=
  ((List.range b.cols).filter
    (fun (x : Nat) => decide (b.getCell ⟨(x : Int), 0⟩ = some .Empty))).map (dropTarget b)

/-- `y` is the lowest empty row of column `x` (row 0 on top): the cell is
empty and every cell below it in the column is occupied. -/
def IsLowestEmptyRow (b : Board) (x : Nat) (y : Int) : Prop :=
  ∃ yn : Nat, yn < b.rows ∧ y = (yn : Int) ∧
    b.getCell ⟨(x : Int), (yn : Int)⟩ = some .Empty ∧
    ∀ y' : Nat, y' < b.rows → yn < y' →
      b.getCell ⟨(x : Int), (y' : Int)⟩ ≠ some .Empty

instance instDecIsLowestEmptyRow (b : Board) (x : Nat) (y : Int) :
    Decidable (IsLowestEmptyRow b x y) := by
  unfold IsLowestEmptyRow; infer_instance

theorem dropTarget_x (b : Board) (x : Nat) : (dropTarget b x).x = (x : Int) := by
  unfold dropTarget
  split <;> rfl

theorem find?_range'_some {p : Nat → Bool} :
    ∀ {n s lvl : Nat}, (List.range' s n).find? p = some lvl →
      p lvl = true ∧ s ≤ lvl ∧ lvl < s + n ∧
        ∀ l, s ≤ l → l < lvl → p l = false := by
  intro n
  induction n with
  | zero =>
    intro s lvl h
    rw [List.range'_zero] at h
    cases h
  | succ n ih =>
    intro s lvl h
    rw [List.range'_succ] at h
    by_cases hp : p s
    · rw [List.find?_cons_of_pos _ hp] at h
      cases h
      exact ⟨hp, le_refl _, by omega, fun l hl1 hl2 => absurd hl1 (by omega)⟩
    · rw [List.find?_cons_of_neg _ hp] at h
      obtain ⟨h1, h2, h3, h4⟩ := ih h
      refine ⟨h1, by omega, by omega, fun l hl1 hl2 => ?_⟩
      rcases Nat.eq_or_lt_of_le hl1 with rfl | hlt
      · simpa using hp
      · exact h4 l (by omega) hl2

/-- Under the gravity invariant, the source's drop target for an open column
is exactly the lowest empty row of that column. -/
theorem dropTarget_lowest (b : Board) (x : Nat) (hgr : GravityOk b)
    (hx : x < b.cols) (htop : b.getCell ⟨(x : Int), 0⟩ = some .Empty) :
    IsLowestEmptyRow b x (dropTarget b x).y := by
  have hvalid := ((getCell_eq_empty_iff b ⟨(x : Int), 0⟩).1 htop).1
  have hvalid' := (isValidPosition_iff b ⟨(x : Int), 0⟩).1 hvalid
  have hrows : 0 < b.rows := by
    have := hvalid'.2.2.2
    omega
  cases hfind : (List.range' 1 (b.rows - 1)).find?
      (fun (lvl : Nat) => decide (b.getCell ⟨(x : Int), (lvl : Int)⟩ ≠ some .Empty)) with
  | some lvl =>
    have hdt : dropTarget b x = ⟨(x : Int), (lvl : Int) - 1⟩ := by
      unfold dropTarget; rw [hfind]
    rw [hdt]
    show IsLowestEmptyRow b x ((lvl : Int) - 1)
    obtain ⟨h1, h2, h3, h4⟩ := find?_range'_some hfind
    have hocc : b.getCell ⟨(x : Int), (lvl : Int)⟩ ≠ some .Empty :=
      of_decide_eq_true h1
    have hlvlrows : lvl < b.rows := by omega
    refine ⟨lvl - 1, by omega, by omega, ?_, ?_⟩
    · by_cases h0 : lvl = 1
      · subst h0
        simpa using htop
      · have hfalse := h4 (lvl - 1) (by omega) (by omega)
        have h5 : ¬ (b.getCell ⟨(x : Int), ((lvl - 1 : Nat) : Int)⟩ ≠ some .Empty) :=
          of_decide_eq_false hfalse
        exact not_not.1 h5
    · intro y' hy'2 hy'1
      rcases Nat.eq_or_lt_of_le (show lvl ≤ y' by omega) with rfl | hlt
      · exact hocc
      · exact hgr x hx y' hy'2 lvl hlt hocc
  | none =>
    have hdt : dropTarget b x = ⟨(x : Int), (b.rows : Int) - 1⟩ := by
      unfold dropTarget; rw [hfind]
    rw [hdt]
    show IsLowestEmptyRow b x ((b.rows : Int) - 1)
    rw [List.find?_eq_none] at hfind
    refine ⟨b.rows - 1, by omega, by omega, ?_, ?_⟩
    · by_cases h0 : b.rows = 1
      · have : b.rows - 1 = 0 := by omega
        rw [this]
        simpa using htop
      · have hmem : b.rows - 1 ∈ List.range' 1 (b.rows - 1) := by
          rw [List.mem_range']
          exact ⟨b.rows - 2, by omega, by omega⟩
        have h5 := hfind _ hmem
        simp only [decide_eq_true_eq, not_not] at h5
        exact h5
    · intro y' h1 h2
      exfalso
      omega

/-- The column loop of `generateValidPositions`, characterised: starting from
an accumulator whose entries all lie in columns before `s`, a defined run
appends exactly the drop targets of the open columns among `s … s+n-1`. -/
theorem genFold (b : Board) : ∀ (n s : Nat) (acc ps : List Vec2i),
    (∀ p ∈ acc, p.x < (s : Int)) →
    (List.range' s n).foldlM (genStep b) acc = some ps →
    ps = acc ++ ((List.range' s n).filter
      (fun (x : Nat) => decide (b.getCell ⟨(x : Int), 0⟩ = some .Empty))).map (dropTarget b) := by
  intro n
  induction n with
  | zero =>
    intro s acc ps _ h
    simp only [List.range'_zero, List.foldlM_nil] at h
    cases h
    simp
  | succ n ih =>
    intro s acc ps hacc h
    rw [List.range'_succ, List.foldlM_cons] at h
    rw [List.range'_succ]
    by_cases htop : b.getCell ⟨(s : Int), 0⟩ = some .Empty
    · rw [List.filter_cons, if_pos (decide_eq_true htop)]
      cases hfind : (List.range' 1 (b.rows - 1)).find?
          (fun (lvl : Nat) => decide (b.getCell ⟨(s : Int), (lvl : Int)⟩ ≠ some .Empty)) with
      | some lvl =>
        have hstep : genStep b acc s =
            some (acc ++ [(⟨(s : Int), (lvl : Int) - 1⟩ : Vec2i)]) := by
          unfold genStep
          rw [if_neg (fun hne => hne htop), hfind]
          simp [List.getLast?_concat]
        rw [hstep] at h
        have hacc' : ∀ p ∈ acc ++ [(⟨(s : Int), (lvl : Int) - 1⟩ : Vec2i)],
            p.x < ((s + 1 : Nat) : Int) := by
          intro p hp
          rcases List.mem_append.1 hp with hp | hp
          · have := hacc p hp
            push_cast
            omega
          · have : p = (⟨(s : Int), (lvl : Int) - 1⟩ : Vec2i) := by simpa using hp
            subst this
            push_cast
            omega
        have hrec := ih (s + 1) _ ps hacc' h
        rw [hrec]
        have hdt : dropTarget b s = ⟨(s : Int), (lvl : Int) - 1⟩ := by
          unfold dropTarget; rw [hfind]
        simp [hdt]
      | none =>
        cases acc with
        | nil =>
          have hstep : genStep b [] s = none := by
            unfold genStep
            rw [if_neg (fun hne => hne htop), hfind]
            rfl
          rw [hstep] at h
          simp at h
        | cons a as =>
          cases hlast : (a :: as).getLast? with
          | none => simp at hlast
          | some last =>
            have hmem := List.mem_of_mem_getLast? hlast
            have hlt : last.x < (s : Int) := hacc last hmem
            have hstep : genStep b (a :: as) s =
                some ((a :: as) ++ [(⟨(s : Int), (b.rows : Int) - 1⟩ : Vec2i)]) := by
              unfold genStep
              rw [if_neg (fun hne => hne htop), hfind]
              dsimp only
              rw [hlast]
              dsimp only
              rw [if_pos (by omega : last.x ≠ (s : Int))]
            rw [hstep] at h
            have hacc' : ∀ p ∈ (a :: as) ++ [(⟨(s : Int), (b.rows : Int) - 1⟩ : Vec2i)],
                p.x < ((s + 1 : Nat) : Int) := by
              intro p hp
              rcases List.mem_append.1 hp with hp | hp
              · have := hacc p hp
                push_cast
                omega
              · have : p = (⟨(s : Int), (b.rows : Int) - 1⟩ : Vec2i) := by simpa using hp
                subst this
                push_cast
                omega
            have hrec := ih (s + 1) _ ps hacc' h
            rw [hrec]
            have hdt : dropTarget b s = ⟨(s : Int), (b.rows : Int) - 1⟩ := by
              unfold dropTarget; rw [hfind]
            simp [hdt]
    · rw [List.filter_cons, if_neg (by simpa using htop)]
      have hstep : genStep b acc s = some acc := by
        unfold genStep
        rw [if_pos htop]
      rw [hstep] at h
      exact ih (s + 1) acc ps
        (fun p hp => lt_trans (hacc p hp) (by push_cast; omega)) h

/-- **C3.**  The in-bounds claim for the generator's `res.back()` read fails:
on the all-empty 6×7 board the very first column is scanned, nothing has been
pushed, and the source reads `res.back()` of an empty vector — the model
returns its undefined-behaviour sentinel `none`. -/
theorem generateValidPositions_empty_board_ub :
    generateValidPositions ⟨6, 7, 0, 0⟩ = none := by decide

/-- The board used to refute C2's "lowest empty row" reading on an arbitrary
(non-gravity) board: Positive at `(0, 5)` (grounded) and a floating Positive
at `(1, 2)`. -/
def bC2 : Board := ⟨6, 7, (1 <<< 35) ||| (1 <<< 15), 0⟩

/-- **C2, counterexample.**  On a board with a floating piece (no gravity
invariant), the generator returns `(1, 1)` for column 1 — the cell above the
topmost occupied cell — which is *not* the lowest empty row of that column
(row 5 is). -/
theorem generateValidPositions_lowest_cex :
    generateValidPositions bC2 =
      some [⟨0, 4⟩, ⟨1, 1⟩, ⟨2, 5⟩, ⟨3, 5⟩, ⟨4, 5⟩, ⟨5, 5⟩, ⟨6, 5⟩] ∧
    ¬ IsLowestEmptyRow bC2 1 1 ∧ IsLowestEmptyRow bC2 1 5 := by
  refine ⟨by decide, by decide, by decide⟩

/-- **C2, amended.**  For boards satisfying the gravity invariant, whenever
`generateValidPositions` completes without its out-of-bounds `res.back()`
read (it returns a value), the result is exactly one position per column
whose top cell is empty — the lowest empty row of that column — ordered by
strictly ascending column, with at most `cols` entries.  (The function is a
`const`-reference computation, so the board itself is untouched; in this
embedding it is a pure function.) -/
theorem generateValidPositions_characterisation (b : Board) (ps : List Vec2i)
    (hgr : GravityOk b) (hdef : generateValidPositions b = some ps) :
    ps = specPositions b ∧
    (∀ x : Nat, x < b.cols →
      (b.getCell ⟨(x : Int), 0⟩ = some .Empty ↔ ∃ p ∈ ps, p.x = (x : Int))) ∧
    (∀ p ∈ ps, ∃ x : Nat, x < b.cols ∧ p.x = (x : Int) ∧
      b.getCell ⟨(x : Int), 0⟩ = some .Empty ∧ IsLowestEmptyRow b x p.y) ∧
    ps.Pairwise (fun p q => p.x < q.x) ∧
    ps.length ≤ b.cols := by
  have hmain : ps = specPositions b := by
    have h0 : (List.range' 0 b.cols).foldlM (genStep b) [] = some ps := by
      rw [← List.range_eq_range']
      exact hdef
    have := genFold b b.cols 0 [] ps (by simp) h0
    rw [this]
    unfold specPositions
    rw [List.range_eq_range']
    simp
  refine ⟨hmain, ?_, ?_, ?_, ?_⟩
  · intro x hx
    constructor
    · intro htop
      refine ⟨dropTarget b x, ?_, dropTarget_x b x⟩
      rw [hmain]
      unfold specPositions
      exact List.mem_map.2 ⟨x,
        List.mem_filter.2 ⟨List.mem_range.2 hx, decide_eq_true htop⟩, rfl⟩
    · rintro ⟨p, hp, hpx⟩
      rw [hmain] at hp
      unfold specPositions at hp
      obtain ⟨x', hx', hfx⟩ := List.mem_map.1 hp
      obtain ⟨hxr, hpred⟩ := List.mem_filter.1 hx'
      have hxx : (x' : Int) = (x : Int) := by
        rw [← hpx, ← hfx]
        exact (dropTarget_x b x').symm
      have hxx' : x' = x := by exact_mod_cast hxx
      subst hxx'
      simpa using hpred
  · intro p hp
    rw [hmain] at hp
    unfold specPositions at hp
    obtain ⟨x', hx', hfx⟩ := List.mem_map.1 hp
    obtain ⟨hxr, hpred⟩ := List.mem_filter.1 hx'
    have htop : b.getCell ⟨(x' : Int), 0⟩ = some .Empty := by simpa using hpred
    refine ⟨x', List.mem_range.1 hxr, ?_, htop, ?_⟩
    · rw [← hfx]
      exact dropTarget_x b x'
    · rw [← hfx]
      exact dropTarget_lowest b x' hgr (List.mem_range.1 hxr) htop
  · rw [hmain]
    unfold specPositions
    refine List.pairwise_map.2 ?_
    have hpw : ((List.range b.cols).filter
        (fun (x : Nat) => decide (b.getCell ⟨(x : Int), 0⟩ = some .Empty))).Pairwise (· < ·) :=
      List.Pairwise.sublist (List.filter_sublist _) (List.pairwise_lt_range _)
    exact hpw.imp (fun h => by
      rw [dropTarget_x, dropTarget_x]
      exact_mod_cast h)
  · rw [hmain]
    unfold specPositions
    rw [List.length_map]
    exact le_trans (List.length_filter_le _ _) (le_of_eq (List.length_range _))

/-- Witness for the amended C2 at a concrete input: the scenario board with
three Positive pieces on the bottom row. -/
theorem generateValidPositions_characterisation_witness :
    ([⟨0, 4⟩, ⟨1, 4⟩, ⟨2, 4⟩, ⟨3, 5⟩, ⟨4, 5⟩, ⟨5, 5⟩, ⟨6, 5⟩] : List Vec2i) =
      specPositions ⟨6, 7, (1 <<< 35) ||| (1 <<< 36) ||| (1 <<< 37), 0⟩ :=
  (generateValidPositions_characterisation
    ⟨6, 7, (1 <<< 35) ||| (1 <<< 36) ||| (1 <<< 37), 0⟩
    [⟨0, 4⟩, ⟨1, 4⟩, ⟨2, 4⟩, ⟨3, 5⟩, ⟨4, 5⟩, ⟨5, 5⟩, ⟨6, 5⟩]
    (by decide) (by decide)).1

/-! ## C9: the game driver's handling of an illegal move -/

/-- **C9.**  When the move handed back by the active agent is illegal (the
placement fails), `Game::makeMove` leaves the authoritative board unchanged,
does not swap the active player, and returns the terminal component of the
full-board evaluation of that unchanged board. -/
theorem makeMove_illegal (g : GameState) (m : Move)
    (hfail : g.board.place m = none) :
    makeMove g m = (g, (evaluate g.board).1) := by
  unfold makeMove
  by_cases hgo : g.isGameOver = false
  · rw [if_pos hgo, hfail]
  · rw [if_neg hgo]

/-- Witness for C9 at a concrete input: an `Empty`-tile move on the fresh
game state fails to place and the turn reports no terminal. -/
theorem makeMove_illegal_witness :
    makeMove ⟨⟨6, 7, 0, 0⟩, false, true⟩ ⟨⟨0, 0⟩, .Empty⟩ =
      (⟨⟨6, 7, 0, 0⟩, false, true⟩, none) := by
  rw [makeMove_illegal ⟨⟨6, 7, 0, 0⟩, false, true⟩ ⟨⟨0, 0⟩, .Empty⟩ (by decide)]
  decide

/-! ## C10: colour-swap symmetry of the whole-board evaluator -/

/-- The colour-swapped board: every Positive piece becomes Negative and vice
versa (the two bitsets are exchanged). -/
def swapBoard (b : Board) : Board := ⟨b.rows, b.cols, b.negativePieces, b.positivePieces⟩

theorem allCells_swap (b : Board) : allCells (swapBoard b) = allCells b := rfl

theorem isValidPosition_swap (b : Board) (p : Vec2i) :
    (swapBoard b).isValidPosition p = b.isValidPosition p := rfl

theorem getCell_swapBoard_eq (b : Board) (p : Vec2i) :
    (swapBoard b).getCell p =
      if ¬ b.isValidPosition p then none
      else if b.negativePieces.testBit (b.index p) then some .Positive
      else if b.positivePieces.testBit (b.index p) then some .Negative
      else some .Empty := rfl

theorem enemy_val (t : Tile) : (getEnemyTile t).val = -t.val := by
  cases t <;> simp [getEnemyTile, Tile.val]

theorem enemy_eq_iff (u t : Tile) : getEnemyTile u = getEnemyTile t ↔ u = t := by
  cases u <;> cases t <;> decide

theorem enemy_empty_iff (t : Tile) : getEnemyTile t = .Empty ↔ t = .Empty := by
  cases t <;> decide

/-- On a board with no doubly-occupied cell, `operator[]` of the swapped
board reads the enemy tile of what `operator[]` of the original board reads. -/
theorem getCell_swapBoard (b : Board) (hno : NoOverlap b) (p : Vec2i) :
    (swapBoard b).getCell p = (b.getCell p).map getEnemyTile := by
  rw [getCell_swapBoard_eq]
  unfold Board.getCell
  by_cases hv : b.isValidPosition p
  · have hidx := index_lt_of_valid b p hv
    by_cases hp : b.positivePieces.testBit (b.index p) <;>
      by_cases hn : b.negativePieces.testBit (b.index p)
    · exact absurd ⟨hp, hn⟩ (hno _ hidx)
    · simp [hv, hp, hn, getEnemyTile]
    · simp [hv, hp, hn, getEnemyTile]
    · simp [hv, hp, hn, getEnemyTile]
  · simp [hv]

theorem checkGo_swap (b : Board) (hno : NoOverlap b) (p d : Vec2i) (t : Tile) :
    ∀ fuel i, checkGo (swapBoard b) p d (getEnemyTile t) i fuel =
      checkGo b p d t i fuel := by
  intro fuel
  induction fuel with
  | zero => intro i; rfl
  | succ fuel ih =>
    intro i
    unfold checkGo
    rw [show (swapBoard b).cols = b.cols from rfl,
      show (swapBoard b).rows = b.rows from rfl]
    have hcell : ((swapBoard b).getCell (p.add (d.smul (i : Int))) ≠
        some (getEnemyTile t)) ↔
        (b.getCell (p.add (d.smul (i : Int))) ≠ some t) := by
      rw [getCell_swapBoard b hno]
      cases b.getCell (p.add (d.smul (i : Int))) with
      | none => simp
      | some u => simp [enemy_eq_iff]
    by_cases hb : (p.add (d.smul (i : Int))).x < 0 ∨
        (p.add (d.smul (i : Int))).x ≥ (b.cols : Int) ∨
        (p.add (d.smul (i : Int))).y < 0 ∨
        (p.add (d.smul (i : Int))).y ≥ (b.rows : Int)
    · rw [if_pos hb, if_pos hb]
    · rw [if_neg hb, if_neg hb]
      by_cases hc : b.getCell (p.add (d.smul (i : Int))) ≠ some t
      · rw [if_pos hc, if_pos (hcell.2 hc)]
      · rw [if_neg hc, if_neg (fun hh => hc (hcell.1 hh)), ih]

theorem check_swap (b : Board) (hno : NoOverlap b) (p d : Vec2i) (t : Tile) :
    check (swapBoard b) p d (getEnemyTile t) = check b p d t :=
  checkGo_swap b hno p d t (connectN - 1) 1

theorem dirScan_inl (b : Board) (p : Vec2i) (t w : Tile) :
    ∀ ds score, dirScan b p t ds score = .inl w → w = t := by
  intro ds
  induction ds with
  | nil => intro score h; cases h
  | cons d ds ih =>
    intro score h
    unfold dirScan at h
    by_cases h1 : connectN ≤ 1 + check b p d t
    · rw [if_pos h1] at h
      cases h
      rfl
    · rw [if_neg h1] at h
      by_cases h2 : connectN ≤ 1 + check b p d t + check b p d.negate t
      · rw [if_pos h2] at h
        cases h
        rfl
      · rw [if_neg h2] at h
        exact ih _ h

theorem dirScan_swap (b : Board) (hno : NoOverlap b) (p : Vec2i) (t : Tile) :
    ∀ ds score, dirScan (swapBoard b) p (getEnemyTile t) ds (-score) =
      (match dirScan b p t ds score with
        | .inl w => .inl (getEnemyTile w)
        | .inr s => .inr (-s)) := by
  intro ds
  induction ds with
  | nil => intro score; rfl
  | cons d ds ih =>
    intro score
    unfold dirScan
    rw [check_swap b hno p d t, check_swap b hno p d.negate t]
    by_cases h1 : connectN ≤ 1 + check b p d t
    · rw [if_pos h1, if_pos h1]
    · rw [if_neg h1, if_neg h1]
      by_cases h2 : connectN ≤ 1 + check b p d t + check b p d.negate t
      · rw [if_pos h2, if_pos h2]
      · rw [if_neg h2, if_neg h2]
        have harg : -score + 10 ^ (1 + check b p d t + check b p d.negate t) *
            (getEnemyTile t).val =
            -(score + 10 ^ (1 + check b p d t + check b p d.negate t) * t.val) := by
          rw [enemy_val]
          ring
        rw [harg]
        exact ih _

theorem cellScan_inl (b : Board) (w : Tile) :
    ∀ cells score, cellScan b cells score = .inl w → w ≠ .Empty := by
  intro cells
  induction cells with
  | nil => intro score h; cases h
  | cons c rest ih =>
    intro score h
    rcases c with ⟨x, y⟩
    unfold cellScan at h
    cases hcell : b.getCell ⟨(x : Int), (y : Int)⟩ with
    | none =>
      rw [hcell] at h
      dsimp only at h
      exact ih _ h
    | some t =>
      rw [hcell] at h
      dsimp only at h
      by_cases ht : t = .Empty
      · rw [if_pos ht] at h
        exact ih _ h
      · rw [if_neg ht] at h
        cases hscan : dirScan b ⟨(x : Int), (y : Int)⟩ t directions score with
        | inl w' =>
          rw [hscan] at h
          dsimp only at h
          cases h
          have hwt := dirScan_inl b ⟨(x : Int), (y : Int)⟩ t w directions score hscan
          rw [hwt]
          exact ht
        | inr s =>
          rw [hscan] at h
          dsimp only at h
          exact ih _ h

theorem cellScan_swap (b : Board) (hno : NoOverlap b) :
    ∀ cells score, cellScan (swapBoard b) cells (-score) =
      (match cellScan b cells score with
        | .inl w => .inl (getEnemyTile w)
        | .inr s => .inr (-s)) := by
  intro cells
  induction cells with
  | nil => intro score; rfl
  | cons c rest ih =>
    intro score
    rcases c with ⟨x, y⟩
    unfold cellScan
    rw [getCell_swapBoard b hno]
    cases hcell : b.getCell ⟨(x : Int), (y : Int)⟩ with
    | none => exact ih score
    | some t =>
      simp only [Option.map_some']
      by_cases ht : t = .Empty
      · rw [if_pos ht, if_pos ((enemy_empty_iff t).2 ht)]
        exact ih _
      · rw [if_neg ht, if_neg (fun hh => ht ((enemy_empty_iff t).1 hh))]
        rw [dirScan_swap b hno ⟨(x : Int), (y : Int)⟩ t directions score]
        cases hscan : dirScan b ⟨(x : Int), (y : Int)⟩ t directions score with
        | inl w => rfl
        | inr s => exact ih s

theorem isDrawnTop_swap (b : Board) (hno : NoOverlap b) :
    isDrawnTop (swapBoard b) = isDrawnTop b := by
  unfold isDrawnTop
  rw [show (swapBoard b).cols = b.cols from rfl, Bool.eq_iff_iff]
  simp only [List.all_eq_true, decide_eq_true_eq]
  refine ⟨fun h i hi => ?_, fun h i hi => ?_⟩
  · have := h i hi
    rw [getCell_swapBoard b hno] at this
    intro hh
    exact this (by rw [hh]; rfl)
  · have := h i hi
    rw [getCell_swapBoard b hno]
    intro hh
    cases hcell : b.getCell ⟨(i : Int), 0⟩ with
    | none => rw [hcell] at hh; cases hh
    | some u =>
      rw [hcell] at hh
      simp only [Option.map_some', Option.some.injEq] at hh
      exact this (by rw [hcell, (enemy_eq_iff u .Empty).1 (by rw [hh]; rfl)])

/-- The board used to refute C10's saturated case: a completed Positive
four-in-a-row on the bottom row. -/
def bC10 : Board :=
  ⟨6, 7, (1 <<< 35) ||| (1 <<< 36) ||| (1 <<< 37) ||| (1 <<< 38), 0⟩

/-- **C10, counterexample.**  On a winning board the score saturates to
`LONG_MAX`, the colour-swapped board's score saturates to `LONG_MIN`, and
`LONG_MIN ≠ -LONG_MAX` (two's complement is asymmetric), so the claimed
equality `score(board) = -score(colorSwappedBoard)` fails on saturated
terminal boards. -/
theorem evaluate_swap_cex :
    (evaluate bC10).1 = some 1 ∧ (evaluate bC10).2 = longMax ∧
    (evaluate (swapBoard bC10)).2 = longMin ∧
    (evaluate (swapBoard bC10)).2 ≠ -((evaluate bC10).2) := by
  refine ⟨by decide, by decide, by decide, by decide⟩

/-- **C10, amended.**  For every board in which no cell holds both colours:
the terminal component of `evaluate` of the colour-swapped board is the
negation of the original's; the heuristic score negates exactly whenever no
win is reported (absent terminal or draw); and when a win is reported the
two scores are the saturation constants `2^63 - 1` and `-2^63`, which are
not exact negations of one another. -/
theorem evaluate_swap_symmetry (b : Board) (hno : NoOverlap b) :
    (evaluate (swapBoard b)).1 = ((evaluate b).1).map (fun v => -v) ∧
    ((evaluate b).1 = none ∨ (evaluate b).1 = some 0 →
      (evaluate (swapBoard b)).2 = -((evaluate b).2)) ∧
    ((evaluate b).1 = some 1 →
      (evaluate b).2 = longMax ∧ (evaluate (swapBoard b)).2 = longMin) ∧
    ((evaluate b).1 = some (-1) →
      (evaluate b).2 = longMin ∧ (evaluate (swapBoard b)).2 = longMax) := by
  have hcs := cellScan_swap b hno (allCells b) 0
  rw [neg_zero] at hcs
  unfold evaluate
  rw [allCells_swap, hcs]
  cases hscan : cellScan b (allCells b) 0 with
  | inl w =>
    have hw := cellScan_inl b w (allCells b) 0 hscan
    cases w with
    | Empty => exact absurd rfl hw
    | Positive =>
      dsimp only
      decide
    | Negative =>
      dsimp only
      decide
  | inr score =>
    dsimp only
    rw [isDrawnTop_swap b hno]
    by_cases hd : isDrawnTop b
    · simp [hd]
    · simp [hd]

/-- Witness for the amended C10 at a concrete input: the three-in-a-row
heuristic board scores `3090`, and its colour swap scores `-3090`. -/
theorem evaluate_swap_symmetry_witness :
    (evaluate (swapBoard ⟨6, 7, (1 <<< 35) ||| (1 <<< 36) ||| (1 <<< 37), 0⟩)).2 =
      -((evaluate ⟨6, 7, (1 <<< 35) ||| (1 <<< 36) ||| (1 <<< 37), 0⟩).2) :=
  (evaluate_swap_symmetry ⟨6, 7, (1 <<< 35) ||| (1 <<< 36) ||| (1 <<< 37), 0⟩
    (by decide)).2.1 (Or.inl (by decide))

/-! ## C6: the end-to-end minimax scenario

The scenario board: three Positive tiles at row 5, columns 0–2, of the 6×7
board.  Model-checking the embedding (and an instrumented mirror of it)
shows `minimaxGetNextMove` returns the winning move `(3, 5)` for every depth
1-14, but at depth 15 the search proves a forced Positive win through column
2 first (value `LONG_MAX`), the `beta ≤ alpha` break fires before column 3
is examined, and the returned move is `(2, 4)`; from depth 16 on the search
reaches lines that fill columns 0–2 completely, where `generateValidPositions`
performs its out-of-bounds `res.back()` read (C3), so the run is undefined.
The depth-16 refutation is small enough to check here (the undefined access
aborts the model after the leftmost line); the kernel cannot feasibly check
the 43-million-node depth-15 search (or the mid-size depth 3–14 searches
within the verifier's budget), so the amended claim is stated for depths
1–2, each verified by evaluation. -/

/-- The C6 scenario board: Positive at `(0,5)`, `(1,5)`, `(2,5)`. -/
def scenarioC6 : Board := ⟨6, 7, (1 <<< 35) ||| (1 <<< 36) ||| (1 <<< 37), 0⟩

set_option maxHeartbeats 1000000 in
/-- **C6, counterexample.**  At depth 16 (a depth ≥ 1, so inside the claim's
range) the search reaches the move generator's out-of-bounds read and the
model aborts with `none`; in particular it does not return the winning move
`(3, 5)`. -/
theorem minimax_winning_move_cex :
    minimaxGetNextMove .Positive .Negative 16 scenarioC6 = none ∧
    minimaxGetNextMove .Positive .Negative 16 scenarioC6 ≠
      some ⟨⟨3, 5⟩, .Positive⟩ := by
  have h : minimaxGetNextMove .Positive .Negative 16 scenarioC6 = none := by
    decide
  refine ⟨h, ?_⟩
  intro hcontra
  rw [h] at hcontra
  cases hcontra

set_option maxHeartbeats 1000000 in
/-- **C6, amended.**  For every depth `1 ≤ d ≤ 2`, `MinimaxPlayer` with tile
Positive returns the move placing Positive at `(3, 5)`, and the full-board
evaluator applied to the board after that move reports terminal result `+1`. -/
theorem minimax_winning_move (d : Nat) (h1 : 1 ≤ d) (h2 : d ≤ 2) :
    minimaxGetNextMove .Positive .Negative d scenarioC6 =
      some ⟨⟨3, 5⟩, .Positive⟩ ∧
    (scenarioC6.place ⟨⟨3, 5⟩, .Positive⟩).map (fun b2 => (evaluate b2).1) =
      some (some 1) := by
  constructor
  · interval_cases d
    · decide
    · decide
  · decide

/-- Witness for the amended C6 at depth 1. -/
theorem minimax_winning_move_witness :
    minimaxGetNextMove .Positive .Negative 1 scenarioC6 =
      some ⟨⟨3, 5⟩, .Positive⟩ :=
  (minimax_winning_move 1 (by decide) (by decide)).1

/-! ## C7 and C8: Monte Carlo tree search

`MonteCarloNode` owns a board snapshot, the colour to move, the counters and
the children map.  Modelling decisions, recorded once here:
* `std::unordered_map<Move, MonteCarloNode*>` becomes an association list
  recording the map's *contents* (`createChild` appends a fresh entry; the
  list order is bookkeeping only).  Everything the search itself does with
  the map — `getChildForMove` lookups, expansion's "is there a child for
  this generated move yet" test — depends only on membership, never on the
  container's order.  The one place iteration order is observable is the
  final selection loop over the children; that order is unspecified by the
  C++ standard (libstdc++ in particular does not iterate in insertion
  order), so it is abstracted into an order oracle
  `ord : List (Move × MCNode) → List (Move × MCNode)` constrained to
  enumerate exactly the map's entries (a permutation of the contents).
* the floating-point UCT selection (`bestUCT`) is abstracted into an oracle
  `choose : MCNode → Move`; theorems quantify over every oracle, and a run
  in which the oracle names a move with no child aborts with `none` exactly
  where the source would dereference a null pointer.
* the random playout (`playoutPolicy` / `playout`) only feeds the
  backpropagated reward, so it is abstracted into an oracle `po : Nat → Int`
  giving the playout result of each iteration (`rand()` is process-global
  mutable state).
* a terminal *root* makes the source hand `res.second = nullptr` to
  `playout` (undefined); the embedding returns the node itself with an empty
  path, and every theorem below assumes a non-terminal starting board.
* the memoised `m_isTerminal` / `m_isFullyExpanded` flags are recomputed on
  demand: a node's board never changes after `createChild` finishes, so the
  latched values coincide with the recomputation. -/

inductive MCNode where
  | mk (board : Board) (turn : Tile) (visits : Nat) (wins : Int)
      (maxChildren : Nat) (children : List (Move × MCNode))

def MCNode.board : MCNode → Board
  | .mk b _ _ _ _ _ => b

def MCNode.turn : MCNode → Tile
  | .mk _ t _ _ _ _ => t

def MCNode.visits : MCNode → Nat
  | .mk _ _ v _ _ _ => v

def MCNode.wins : MCNode → Int
  | .mk _ _ _ w _ _ => w

def MCNode.maxChildren : MCNode → Nat
  | .mk _ _ _ _ mx _ => mx

def MCNode.children : MCNode → List (Move × MCNode)
  | .mk _ _ _ _ _ c => c

/-- The keys of the children map, in insertion order
(`getExpandedMoves`). -/
def keysOf (n : MCNode) : List Move := n.children.map Prod.fst

/-- The children's `(move, visits)` pairs, in insertion order. -/
def cvm (n : MCNode) : List (Move × Nat) :=
  n.children.map (fun mc => (mc.1, mc.2.visits))

/-- The sum of the visit counts over all expanded children. -/
def childVisitSum (n : MCNode) : Nat :=
  (n.children.map (fun mc => mc.2.visits)).sum

/-- `MonteCarloNode::MonteCarloNode(t_turn, t_board)`: zero counters, no
children, `m_maxChildren = generateValidPositions(m_board).size()` (whose
out-of-bounds read propagates as `none`). -/
def mkNode (turn : Tile) (b : Board) : Option MCNode :=
  (generateValidPositions b).map (fun ps => .mk b turn 0 0 ps.length [])

/-- `getChildForMove`. -/
def childFor (children : List (Move × MCNode)) (m : Move) : Option MCNode :=
  (children.find? (fun mc => decide (mc.1 = m))).map (fun mc => mc.2)

/-- `MonteCarloNode::applyMove`: on placement success recompute
`m_maxChildren` and flip the turn; on failure the node is unchanged (the
caller `createChild` ignores the returned bool). -/
def applyMoveN (n : MCNode) (m : Move) : Option MCNode :=
  match n.board.place m with
  | none => some n
  | some b2 =>
    (generateValidPositions b2).map (fun ps =>
      .mk b2 (getEnemyTile n.turn) n.visits n.wins ps.length n.children)

/-- `createChild`: clone the parent's board into a fresh node, apply the
move, and append the child to the children map; returns the updated parent
and the child. -/
def createChildN (n : MCNode) (m : Move) : Option (MCNode × MCNode) := do
  let fresh ← mkNode n.turn n.board
  let child ← applyMoveN fresh m
  pure (.mk n.board n.turn n.visits n.wins n.maxChildren
    (n.children ++ [(m, child)]), child)

/-- `expand`: create a child for the first legal move (column order) that
has no child yet; `none` both for the generator's undefined read and for the
`return nullptr` fall-through (unreachable when not fully expanded). -/
def expandN (n : MCNode) : Option (MCNode × Move) := do
  let ps ← generateValidPositions n.board
  match ps.find? (fun p => (childFor n.children ⟨p, n.turn⟩).isNone) with
  | none => none
  | some p =>
    (createChildN n ⟨p, n.turn⟩).map (fun nc => (nc.1, (⟨p, n.turn⟩ : Move)))

/-- Replace the child stored under `m` (the functional account of
descending through `node = res.second` and later mutating that subtree). -/
def setChild (n : MCNode) (m : Move) (c2 : MCNode) : MCNode :=
  .mk n.board n.turn n.visits n.wins n.maxChildren
    (n.children.map (fun mc => if mc.1 = m then (m, c2) else mc))

theorem childFor_mem {children : List (Move × MCNode)} {m : Move} {c : MCNode}
    (h : childFor children m = some c) : ∃ mc ∈ children, mc.2 = c := by
  unfold childFor at h
  cases hf : children.find? (fun mc => decide (mc.1 = m)) with
  | none => rw [hf] at h; cases h
  | some mc =>
    rw [hf] at h
    cases h
    exact ⟨mc, List.mem_of_find?_eq_some hf, rfl⟩

theorem sizeOf_children_lt (n : MCNode) : sizeOf n.children < sizeOf n := by
  cases n with
  | mk b t v w mx c =>
    simp [MCNode.children]

/-- `MonteCarloPlayer::traverse`: walk down while terminal is false, expand
at the first not-fully-expanded node, otherwise descend into the child the
(abstracted) UCT selection picks; returns the updated tree and the path of
moves from the root to the leaf. -/
def traverseE (choose : MCNode → Move) (n : MCNode) : Option (MCNode × List Move) :=
  if (evaluate n.board).1.isSome then some (n, [])
  else if n.children.length ≠ n.maxChildren then
    (expandN n).map (fun nm => (nm.1, [nm.2]))
  else
    match hc : childFor n.children (choose n) with
    | none => none
    | some c =>
      (traverseE choose c).map (fun cp => (setChild n (choose n) cp.1, choose n :: cp.2))
termination_by sizeOf n
decreasing_by
  obtain ⟨mc, hmem, hc2⟩ := childFor_mem hc
  have h1 : sizeOf mc < sizeOf n.children := List.sizeOf_lt_of_mem hmem
  have h2 : sizeOf c < sizeOf mc := by
    rcases mc with ⟨m1, c1⟩
    cases hc2
    simp
  exact lt_trans (lt_trans h2 h1) (sizeOf_children_lt n)

/-- `MonteCarloPlayer::backpropagate`, as the equivalent top-down walk along
the recorded path: every node from the root to the leaf (both inclusive)
gets `visits++` and `wins += rs`, where `rs` is already multiplied by the
agent's tile sign as in the source. -/
def backpropN (rs : Int) : MCNode → List Move → MCNode
  | n, [] => .mk n.board n.turn (n.visits + 1) (n.wins + rs) n.maxChildren n.children
  | n, m :: rest =>
    .mk n.board n.turn (n.visits + 1) (n.wins + rs) n.maxChildren
      (n.children.map (fun mc =>
        if mc.1 = m then (m, backpropN rs mc.2 rest) else mc))

/-- One iteration of the simulation loop: traverse/expand, play out (the
oracle's value), backpropagate. -/
def mctsStep (choose : MCNode → Move) (rs : Int) (root : MCNode) : Option MCNode :=
  (traverseE choose root).map (fun tp => backpropN rs tp.1 tp.2)

/-- The simulation loop of `monteCarloTreeSearch`: `n` iterations from a
fresh root on board `b` (`rs` of iteration `i` is
`playoutResult_i * (int)m_tile`). -/
def mctsRun (choose : MCNode → Move) (po : Nat → Int) (mTile : Tile) (b : Board) :
    Nat → Option MCNode
  | 0 => mkNode mTile b
  | n + 1 => (mctsRun choose po mTile b n).bind (mctsStep choose (po n * mTile.val))

/-- The final selection loop of `monteCarloTreeSearch`: `Move res{}; int
maxVisits{0};` then keep the first child whose visit count strictly exceeds
the running maximum. -/
def selFold (cs : List (Move × MCNode)) (init : Move × Nat) : Move × Nat :=
  cs.foldl (fun acc mc => if mc.2.visits > acc.2 then (mc.1, mc.2.visits) else acc) init

/-- The move `monteCarloTreeSearch` returns once the budget is exhausted,
given the children in the order the `unordered_map` iteration hands them
out. -/
def selectBest (children : List (Move × MCNode)) : Move :=
  (selFold children (cppDefaultMove, 0)).1

/-- `monteCarloTreeSearch` end to end (build tree, then select); `ord` is
the map-iteration-order oracle: the selection loop walks the root's children
in whatever order the container enumerates them, which the standard leaves
unspecified — theorems constrain `ord` to a permutation of the contents. -/
def monteCarloTreeSearchModel (choose : MCNode → Move) (po : Nat → Int)
    (ord : List (Move × MCNode) → List (Move × MCNode))
    (mTile : Tile) (b : Board) (n : Nat) : Option Move :=
  (mctsRun choose po mTile b n).map (fun root => selectBest (ord root.children))

/-- Overwrite a node's win accumulator (used to state that the final
selection never reads the win counters). -/
def setWins (w : Int) : MCNode → MCNode
  | .mk b t v _ mx ch => .mk b t v w mx ch

/-- Well-formedness of a search tree: every node's children map has
pairwise-distinct keys (as an `unordered_map` has). -/
inductive WF : MCNode → Prop where
  | mk : ∀ (b : Board) (t : Tile) (v : Nat) (w : Int) (mx : Nat)
      (children : List (Move × MCNode)),
      (children.map Prod.fst).Nodup →
      (∀ mc ∈ children, WF mc.2) →
      WF (.mk b t v w mx children)

theorem childFor_eq_none_iff (l : List (Move × MCNode)) (m : Move) :
    childFor l m = none ↔ m ∉ l.map Prod.fst := by
  unfold childFor
  rw [Option.map_eq_none', List.find?_eq_none]
  constructor
  · intro h hmem
    obtain ⟨mc, hmc, hfst⟩ := List.mem_map.1 hmem
    exact h mc hmc (by simp [hfst])
  · intro h mc hmc
    simp only [decide_eq_true_eq]
    intro heq
    exact h (List.mem_map.2 ⟨mc, hmc, heq⟩)

theorem map_fst_update (l : List (Move × MCNode)) (m : Move) (g : Move × MCNode → MCNode) :
    (l.map (fun mc => if mc.1 = m then (m, g mc) else mc)).map Prod.fst =
      l.map Prod.fst := by
  rw [List.map_map]
  apply List.map_congr_left
  intro mc _
  by_cases h : mc.1 = m
  · simp [h]
  · simp [h]

theorem map_update_of_not_mem (l : List (Move × MCNode)) (m : Move)
    (g : Move × MCNode → MCNode) (hm : m ∉ l.map Prod.fst) :
    l.map (fun mc => if mc.1 = m then (m, g mc) else mc) = l := by
  induction l with
  | nil => rfl
  | cons hd tl ih =>
    simp only [List.map_cons, List.mem_cons, not_or] at hm ⊢
    rw [if_neg (by simpa using fun hh => hm.1 (by simp [← hh])), ih (by simpa using hm.2)]

theorem sum_visits_update (l : List (Move × MCNode)) (m : Move)
    (g : Move × MCNode → MCNode) (hg : ∀ mc, (g mc).visits = mc.2.visits + 1)
    (hnd : (l.map Prod.fst).Nodup) (hm : m ∈ l.map Prod.fst) :
    ((l.map (fun mc => if mc.1 = m then (m, g mc) else mc)).map
        (fun mc => mc.2.visits)).sum =
      ((l.map (fun mc => mc.2.visits)).sum) + 1 := by
  induction l with
  | nil => cases hm
  | cons hd tl ih =>
    rw [List.map_cons, List.nodup_cons] at hnd
    simp only [List.map_cons, List.sum_cons]
    by_cases hk : hd.1 = m
    · rw [if_pos hk]
      have htl : m ∉ tl.map Prod.fst := hk ▸ hnd.1
      rw [map_update_of_not_mem tl m g htl]
      simp only [hg hd]
      omega
    · rw [if_neg hk]
      have hmtl : m ∈ tl.map Prod.fst := by
        rw [List.map_cons] at hm
        rcases List.mem_cons.1 hm with h | h
        · exact absurd h.symm hk
        · exact h
      rw [ih hnd.2 hmtl]
      omega

theorem cvm_update_same_visits (l : List (Move × MCNode)) (m : Move) (c c2 : MCNode)
    (hnd : (l.map Prod.fst).Nodup)
    (hfind : (l.find? (fun mc => decide (mc.1 = m))).map (fun mc => mc.2) = some c)
    (hv : c2.visits = c.visits) :
    (l.map (fun mc => if mc.1 = m then (m, c2) else mc)).map
        (fun mc => (mc.1, mc.2.visits)) =
      l.map (fun mc => (mc.1, mc.2.visits)) := by
  induction l with
  | nil => cases hfind
  | cons hd tl ih =>
    rw [List.map_cons, List.nodup_cons] at hnd
    by_cases hk : hd.1 = m
    · rw [List.find?_cons_of_pos _ (by simpa using hk)] at hfind
      simp only [Option.map_some', Option.some.injEq] at hfind
      have htl : m ∉ tl.map Prod.fst := hk ▸ hnd.1
      simp only [List.map_cons, if_pos hk]
      rw [map_update_of_not_mem tl m (fun mc => c2) htl]
      rw [← hk, hv, hfind]
    · rw [List.find?_cons_of_neg _ (by simpa using hk)] at hfind
      simp only [List.map_cons, if_neg hk]
      rw [ih hnd.2 hfind]

theorem backpropN_board (rs : Int) (n : MCNode) (path : List Move) :
    (backpropN rs n path).board = n.board ∧
    (backpropN rs n path).turn = n.turn ∧
    (backpropN rs n path).visits = n.visits + 1 ∧
    (backpropN rs n path).maxChildren = n.maxChildren := by
  cases path <;> exact ⟨rfl, rfl, rfl, rfl⟩

theorem backpropN_children_nil (rs : Int) (n : MCNode) :
    (backpropN rs n []).children = n.children := rfl

theorem backpropN_children_cons (rs : Int) (n : MCNode) (m : Move) (rest : List Move) :
    (backpropN rs n (m :: rest)).children =
      n.children.map (fun mc =>
        if mc.1 = m then (m, backpropN rs mc.2 rest) else mc) := rfl

theorem WF_backprop (rs : Int) : ∀ (path : List Move) (n : MCNode),
    WF n → WF (backpropN rs n path) := by
  intro path
  induction path with
  | nil =>
    intro n hwf
    cases hwf with
    | mk b t v w mx children hnd hall => exact WF.mk _ _ _ _ _ _ hnd hall
  | cons m rest ih =>
    intro n hwf
    cases hwf with
    | mk b t v w mx children hnd hall =>
      refine WF.mk _ _ _ _ _ _ ?_ ?_
      · exact (map_fst_update children m
          (fun mc => backpropN rs mc.2 rest)).symm ▸ hnd
      · intro mc hmc
        obtain ⟨mc0, hmc0, hmceq⟩ := List.mem_map.1 hmc
        by_cases hk : mc0.1 = m
        · rw [if_pos hk] at hmceq
          rw [← hmceq]
          exact ih mc0.2 (hall mc0 hmc0)
        · rw [if_neg hk] at hmceq
          rw [← hmceq]
          exact hall mc0 hmc0

theorem applyMoveN_fields (n n2 : MCNode) (m : Move) (h : applyMoveN n m = some n2) :
    n2.visits = n.visits ∧ n2.wins = n.wins ∧ n2.children = n.children := by
  unfold applyMoveN at h
  cases hpl : n.board.place m with
  | none =>
    rw [hpl] at h
    cases h
    exact ⟨rfl, rfl, rfl⟩
  | some b2 =>
    rw [hpl] at h
    replace h : (generateValidPositions b2).map
        (fun ps => MCNode.mk b2 (getEnemyTile n.turn) n.visits n.wins
          ps.length n.children) = some n2 := h
    cases hg2 : generateValidPositions b2 with
    | none => rw [hg2] at h; cases h
    | some ps2 =>
      rw [hg2] at h
      cases h
      exact ⟨rfl, rfl, rfl⟩

theorem createChildN_spec (n : MCNode) (m : Move) (pr : MCNode × MCNode)
    (h : createChildN n m = some pr) :
    ∃ ps child, generateValidPositions n.board = some ps ∧
      applyMoveN (MCNode.mk n.board n.turn 0 0 ps.length []) m = some child ∧
      pr = (MCNode.mk n.board n.turn n.visits n.wins n.maxChildren
        (n.children ++ [(m, child)]), child) := by
  unfold createChildN mkNode at h
  cases hg : generateValidPositions n.board with
  | none => rw [hg] at h; cases h
  | some ps =>
    rw [hg] at h
    replace h : (applyMoveN (MCNode.mk n.board n.turn 0 0 ps.length []) m).bind
        (fun child => some (MCNode.mk n.board n.turn n.visits n.wins n.maxChildren
          (n.children ++ [(m, child)]), child)) = some pr := h
    cases happ : applyMoveN (MCNode.mk n.board n.turn 0 0 ps.length []) m with
    | none => rw [happ] at h; cases h
    | some child =>
      rw [happ] at h
      cases h
      exact ⟨ps, child, rfl, happ, rfl⟩

theorem expandN_spec (n n2 : MCNode) (m : Move) (h : expandN n = some (n2, m)) :
    ∃ ps p c, generateValidPositions n.board = some ps ∧
      ps.find? (fun p => (childFor n.children ⟨p, n.turn⟩).isNone) = some p ∧
      m = ⟨p, n.turn⟩ ∧ childFor n.children m = none ∧
      n2 = MCNode.mk n.board n.turn n.visits n.wins n.maxChildren
        (n.children ++ [(m, c)]) ∧
      c.visits = 0 ∧ c.children = [] := by
  unfold expandN at h
  cases hg : generateValidPositions n.board with
  | none => rw [hg] at h; cases h
  | some ps =>
    rw [hg] at h
    replace h : (match ps.find? (fun p => (childFor n.children ⟨p, n.turn⟩).isNone) with
      | none => (none : Option (MCNode × Move))
      | some p => (createChildN n ⟨p, n.turn⟩).map
          (fun nc => (nc.1, (⟨p, n.turn⟩ : Move)))) = some (n2, m) := h
    cases hf : ps.find? (fun p => (childFor n.children ⟨p, n.turn⟩).isNone) with
    | none => rw [hf] at h; cases h
    | some p =>
      rw [hf] at h
      replace h : (createChildN n ⟨p, n.turn⟩).map
          (fun nc => (nc.1, (⟨p, n.turn⟩ : Move))) = some (n2, m) := h
      have hpred := List.find?_some hf
      have hnone : childFor n.children ⟨p, n.turn⟩ = none :=
        Option.isNone_iff_eq_none.1 hpred
      cases hcc : createChildN n ⟨p, n.turn⟩ with
      | none => rw [hcc] at h; cases h
      | some pr =>
        rw [hcc] at h
        obtain ⟨ps2, child, hg2, happ, hpr⟩ := createChildN_spec n ⟨p, n.turn⟩ pr hcc
        obtain ⟨hv0, _, hch0⟩ := applyMoveN_fields _ _ _ happ
        simp only [Option.map_some', Option.some.injEq, Prod.mk.injEq] at h
        refine ⟨ps, p, child, rfl, hf, h.2.symm, h.2 ▸ hnone, ?_, ?_, ?_⟩
        · rw [← h.1, hpr, ← h.2]
        · exact hv0
        · exact hch0

theorem setChild_fields (n : MCNode) (m : Move) (c2 : MCNode) :
    (setChild n m c2).board = n.board ∧ (setChild n m c2).turn = n.turn ∧
    (setChild n m c2).visits = n.visits ∧
    (setChild n m c2).maxChildren = n.maxChildren ∧
    (setChild n m c2).children =
      n.children.map (fun mc => if mc.1 = m then (m, c2) else mc) :=
  ⟨rfl, rfl, rfl, rfl, rfl⟩

theorem WF_setChild (n : MCNode) (m : Move) (c2 : MCNode) (hwf : WF n)
    (hc2 : WF c2) : WF (setChild n m c2) := by
  cases hwf with
  | mk b t v w mx children hnd hall =>
    refine WF.mk _ _ _ _ _ _ ?_ ?_
    · exact (map_fst_update children m (fun _ => c2)).symm ▸ hnd
    · intro mc hmc
      obtain ⟨mc0, hmc0, hmceq⟩ := List.mem_map.1 hmc
      by_cases hk : mc0.1 = m
      · rw [if_pos hk] at hmceq
        rw [← hmceq]
        exact hc2
      · rw [if_neg hk] at hmceq
        rw [← hmceq]
        exact hall mc0 hmc0

theorem childFor_mem_keys {l : List (Move × MCNode)} {m : Move} {c : MCNode}
    (h : childFor l m = some c) : m ∈ l.map Prod.fst := by
  unfold childFor at h
  cases hf : l.find? (fun mc => decide (mc.1 = m)) with
  | none => rw [hf] at h; cases h
  | some mc =>
    have hpred := List.find?_some hf
    simp only [decide_eq_true_eq] at hpred
    exact List.mem_map.2 ⟨mc, List.mem_of_find?_eq_some hf, hpred⟩

theorem childFor_sizeOf_lt {n : MCNode} {m : Move} {c : MCNode}
    (h : childFor n.children m = some c) : sizeOf c < sizeOf n := by
  obtain ⟨mc, hmem, hc2⟩ := childFor_mem h
  have h1 : sizeOf mc < sizeOf n.children := List.sizeOf_lt_of_mem hmem
  have h2 : sizeOf c < sizeOf mc := by
    rcases mc with ⟨m1, c1⟩
    cases hc2
    simp
  exact lt_trans (lt_trans h2 h1) (sizeOf_children_lt n)

theorem WF_nodup {n : MCNode} (hwf : WF n) : (keysOf n).Nodup := by
  cases hwf with
  | mk b t v w mx children hnd hall => exact hnd

theorem WF_child {n : MCNode} {m : Move} {c : MCNode} (hwf : WF n)
    (h : childFor n.children m = some c) : WF c := by
  obtain ⟨mc, hmem, hc2⟩ := childFor_mem h
  cases hwf with
  | mk b t v w mx children hnd hall => exact hc2 ▸ hall mc hmem

theorem WF_of_children_nil (c : MCNode) (h : c.children = []) : WF c := by
  cases c with
  | mk b t v w mx ch =>
    simp only [MCNode.children] at h
    subst h
    exact WF.mk _ _ _ _ _ _ (by simp) (by simp)

theorem WF_expand {n n2 : MCNode} {m : Move} (hwf : WF n)
    (h : expandN n = some (n2, m)) : WF n2 := by
  obtain ⟨ps, p, c, hg, hf, hm, hnone, hn2, hcv, hcc⟩ := expandN_spec n n2 m h
  have hwfc : WF c := WF_of_children_nil c hcc
  have hnotmem : m ∉ n.children.map Prod.fst := (childFor_eq_none_iff _ _).1 hnone
  subst hn2
  cases hwf with
  | mk b t v w mx children hnd hall =>
    refine WF.mk _ _ _ _ _ _ ?_ ?_
    · show ((children ++ [(m, c)]).map Prod.fst).Nodup
      rw [List.map_append, List.nodup_append]
      exact ⟨hnd, by simp, by
        intro x hx
        simp only [List.map_cons, List.map_nil, List.mem_singleton]
        intro hxm
        exact hnotmem (hxm ▸ hx)⟩
    · intro mc hmc
      rcases List.mem_append.1 hmc with hmc | hmc
      · exact hall mc hmc
      · have : mc = (m, c) := by simpa using hmc
        rw [this]
        exact hwfc

/-- The single-step specification of `traverse`: the tree keeps the node's
own fields, stays well formed, and either the children's `(move, visits)`
association is untouched (descent or terminal) or the node itself expanded
by one fresh zero-visit child; on a non-terminal node the returned path is
non-empty and starts at one of the node's children. -/
theorem traverseE_spec (choose : MCNode → Move) :
    ∀ (k : Nat) (n t : MCNode) (path : List Move), sizeOf n ≤ k → WF n →
    traverseE choose n = some (t, path) →
    t.board = n.board ∧ t.turn = n.turn ∧ t.visits = n.visits ∧
    t.maxChildren = n.maxChildren ∧ WF t ∧
    (cvm t = cvm n ∨ ∃ m, expandN n = some (t, m) ∧ path = [m]) ∧
    ((evaluate n.board).1.isSome = false →
      ∃ m rest, path = m :: rest ∧ m ∈ keysOf t) := by
  intro k
  induction k with
  | zero =>
    intro n t path hk
    exfalso
    cases n
    simp at hk
  | succ k ih =>
    intro n t path hk hwf h
    rw [traverseE.eq_def] at h
    by_cases hterm : (evaluate n.board).1.isSome = true
    · rw [if_pos hterm] at h
      cases h
      refine ⟨rfl, rfl, rfl, rfl, hwf, Or.inl rfl, ?_⟩
      intro hfalse
      rw [hterm] at hfalse
      cases hfalse
    · rw [if_neg hterm] at h
      by_cases hfull : n.children.length ≠ n.maxChildren
      · rw [if_pos hfull] at h
        cases hexp : expandN n with
        | none => rw [hexp] at h; cases h
        | some nm =>
          rcases nm with ⟨n2, m2⟩
          rw [hexp] at h
          simp only [Option.map_some', Option.some.injEq, Prod.mk.injEq] at h
          obtain ⟨ht, hpath⟩ := h
          subst ht
          subst hpath
          obtain ⟨ps, p, c, hg, hf, hm2, hnone, hn2, hcv, hcc⟩ :=
        expandN_spec n n2 m2 hexp
          have hkeys : keysOf n2 = keysOf n ++ [m2] := by
            rw [hn2]
            show (n.children ++ [(m2, c)]).map Prod.fst = _
            rw [List.map_append]
            rfl
          refine ⟨by rw [hn2]; rfl, by rw [hn2]; rfl, by rw [hn2]; rfl,
            by rw [hn2]; rfl, WF_expand hwf hexp,
            Or.inr ⟨m2, rfl, rfl⟩, ?_⟩
          intro _
          exact ⟨m2, [], rfl, by rw [hkeys]; simp⟩
      · rw [if_neg hfull] at h
        cases hcf : childFor n.children (choose n) with
        | none => rw [hcf] at h; cases h
        | some c =>
          rw [hcf] at h
          replace h : (traverseE choose c).map
              (fun cp => (setChild n (choose n) cp.1, choose n :: cp.2)) =
              some (t, path) := h
          cases htr : traverseE choose c with
          | none => rw [htr] at h; cases h
          | some cp =>
            rcases cp with ⟨c2, cpath⟩
            rw [htr] at h
            simp only [Option.map_some', Option.some.injEq, Prod.mk.injEq] at h
            obtain ⟨ht, hpath⟩ := h
            subst ht
            subst hpath
            have hcsz : sizeOf c < sizeOf n := childFor_sizeOf_lt hcf
            have hwfc : WF c := WF_child hwf hcf
            obtain ⟨hb, htn, hv, hmx, hwfc2, hcvm, hpathp⟩ :=
          ih c c2 cpath (by omega) hwfc htr
            refine ⟨rfl, rfl, rfl, rfl, WF_setChild n (choose n) c2 hwf hwfc2,
              Or.inl ?_, ?_⟩
            · show (n.children.map (fun mc =>
                  if mc.1 = choose n then (choose n, c2) else mc)).map
                  (fun mc => (mc.1, mc.2.visits)) = cvm n
              exact cvm_update_same_visits n.children (choose n) c c2
                (WF_nodup hwf) hcf hv
            · intro _
              refine ⟨choose n, cpath, rfl, ?_⟩
              show choose n ∈ (n.children.map (fun mc =>
                if mc.1 = choose n then (choose n, c2) else mc)).map Prod.fst
              rw [map_fst_update]
              exact childFor_mem_keys hcf

/-- The generator, whenever it completes, computes exactly `specPositions`
(the per-column drop targets in column order); shared by the generator and
MCTS developments. -/
theorem genPositions_eq_spec (b : Board) (ps : List Vec2i)
    (hdef : generateValidPositions b = some ps) : ps = specPositions b := by
  have h0 : (List.range' 0 b.cols).foldlM (genStep b) [] = some ps := by
    rw [← List.range_eq_range']
    exact hdef
  have := genFold b b.cols 0 [] ps (by simp) h0
  rw [this]
  unfold specPositions
  rw [List.range_eq_range']
  simp

/-- The drop targets are listed by strictly ascending column. -/
theorem specPositions_pairwise_x (b : Board) :
    (specPositions b).Pairwise (fun p q => p.x < q.x) := by
  unfold specPositions
  refine List.pairwise_map.2 ?_
  have hpw : ((List.range b.cols).filter
      (fun (x : Nat) => decide (b.getCell ⟨(x : Int), 0⟩ = some .Empty))).Pairwise (· < ·) :=
    List.Pairwise.sublist (List.filter_sublist _) (List.pairwise_lt_range _)
  exact hpw.imp (fun h => by
    rw [dropTarget_x, dropTarget_x]
    exact_mod_cast h)

/-- A completed generator run never repeats a position. -/
theorem genPositions_nodup (b : Board) (ps : List Vec2i)
    (hdef : generateValidPositions b = some ps) : ps.Nodup := by
  rw [genPositions_eq_spec b ps hdef]
  exact (specPositions_pairwise_x b).imp
    (fun h heq => absurd (heq ▸ h) (lt_irrefl _))

/-- The visit sum reads off the `(move, visits)` association. -/
theorem cvs_eq_cvm (n : MCNode) :
    childVisitSum n = ((cvm n).map Prod.snd).sum := by
  unfold childVisitSum cvm
  rw [List.map_map]
  rfl

/-- The key list reads off the `(move, visits)` association. -/
theorem keysOf_eq_cvm (n : MCNode) : keysOf n = (cvm n).map Prod.fst := by
  unfold keysOf cvm
  rw [List.map_map]
  rfl

/-- If the children expanded so far are exactly the first `k` legal moves (in
column order), then the first legal move without a child is the `(k+1)`-st
one: appending it extends the prefix by one. -/
theorem find_first_missing (ps : List Vec2i) (turn : Tile)
    (children : List (Move × MCNode)) (k : Nat)
    (hnd : ps.Nodup)
    (hkeys : children.map Prod.fst =
      (ps.take k).map (fun q => (⟨q, turn⟩ : Move)))
    (p : Vec2i)
    (hf : ps.find? (fun q => (childFor children ⟨q, turn⟩).isNone) = some p) :
    children.map Prod.fst ++ [(⟨p, turn⟩ : Move)] =
      (ps.take (k + 1)).map (fun q => (⟨q, turn⟩ : Move)) := by
  have hmv : ∀ (q : Vec2i) (l : List Vec2i),
      (⟨q, turn⟩ : Move) ∈ l.map (fun r => (⟨r, turn⟩ : Move)) ↔ q ∈ l := by
    intro q l
    rw [List.mem_map]
    constructor
    · rintro ⟨r, hr, heq⟩
      have hrq : r = q := congrArg Move.pos heq
      exact hrq ▸ hr
    · intro hq
      exact ⟨q, hq, rfl⟩
  have hpred : ∀ q : Vec2i,
      ((childFor children ⟨q, turn⟩).isNone = true) ↔ q ∉ ps.take k := by
    intro q
    rw [Option.isNone_iff_eq_none, childFor_eq_none_iff, hkeys, hmv]
  have hkl : k < ps.length := by
    by_contra hge
    push_neg at hge
    have htk : ps.take k = ps := List.take_of_length_le hge
    have hnone : ps.find? (fun q => (childFor children ⟨q, turn⟩).isNone) = none := by
      rw [List.find?_eq_none]
      intro q hq hp
      exact (hpred q).1 hp (by rw [htk]; exact hq)
    rw [hnone] at hf
    cases hf
  have hsplit : ps = ps.take k ++ ps.drop k := (List.take_append_drop k ps).symm
  have htknone : (ps.take k).find?
      (fun q => (childFor children ⟨q, turn⟩).isNone) = none := by
    rw [List.find?_eq_none]
    intro q hq hp
    exact (hpred q).1 hp hq
  rw [hsplit, List.find?_append, htknone, Option.none_or] at hf
  have hdropc : ps.drop k = ps[k] :: ps.drop (k + 1) :=
    List.drop_eq_getElem_cons hkl
  have hnotin : ps[k] ∉ ps.take k := by
    have hnd2 : (ps.take k ++ ps.drop k).Nodup := by
      rw [List.take_append_drop]
      exact hnd
    have hdisj := List.disjoint_of_nodup_append hnd2
    intro hin
    exact hdisj hin (by rw [hdropc]; exact List.mem_cons_self _ _)
  have hpk : (childFor children ⟨ps[k], turn⟩).isNone = true := (hpred _).2 hnotin
  rw [hdropc, @List.find?_cons_of_pos _
    (fun q => (childFor children ⟨q, turn⟩).isNone) ps[k] (ps.drop (k + 1)) hpk] at hf
  have hpe : p = ps[k] := by
    injection hf with hh
    exact hh.symm
  rw [hkeys, List.take_succ, List.getElem?_eq_getElem hkl, List.map_append, hpe]
  rfl

/-- One simulation from a non-terminal root: the root's board and turn are
unchanged, the tree stays well formed, the children's visit counts gain
exactly one in total, and the key list either is unchanged or grows by the
first legal move that had no child yet. -/
theorem mctsStep_spec (choose : MCNode → Move) (rs : Int) (root root2 : MCNode)
    (hterm : (evaluate root.board).1.isSome = false) (hwf : WF root)
    (h : mctsStep choose rs root = some root2) :
    root2.board = root.board ∧ root2.turn = root.turn ∧ WF root2 ∧
    childVisitSum root2 = childVisitSum root + 1 ∧
    (keysOf root2 = keysOf root ∨
      ∃ ps p, generateValidPositions root.board = some ps ∧
        ps.find? (fun q => (childFor root.children ⟨q, root.turn⟩).isNone) = some p ∧
        keysOf root2 = keysOf root ++ [(⟨p, root.turn⟩ : Move)]) := by
  unfold mctsStep at h
  cases htr : traverseE choose root with
  | none => rw [htr] at h; cases h
  | some tp =>
    rcases tp with ⟨t, path⟩
    rw [htr] at h
    simp only [Option.map_some', Option.some.injEq] at h
    subst h
    obtain ⟨hb, htn, hv, hmx, hwft, hcvm, hpath⟩ :=
      traverseE_spec choose (sizeOf root) root t path (le_refl _) hwf htr
    obtain ⟨m, rest, hpeq, hmem⟩ := hpath hterm
    subst hpeq
    have hbb := backpropN_board rs t (m :: rest)
    have hkeysbp : keysOf (backpropN rs t (m :: rest)) = keysOf t := by
      show (backpropN rs t (m :: rest)).children.map Prod.fst = _
      rw [backpropN_children_cons]
      exact map_fst_update t.children m (fun mc => backpropN rs mc.2 rest)
    have hsumbp : childVisitSum (backpropN rs t (m :: rest)) = childVisitSum t + 1 := by
      show ((backpropN rs t (m :: rest)).children.map (fun mc => mc.2.visits)).sum = _
      rw [backpropN_children_cons]
      exact sum_visits_update t.children m (fun mc => backpropN rs mc.2 rest)
        (fun mc => (backpropN_board rs mc.2 rest).2.2.1) (WF_nodup hwft) hmem
    rcases hcvm with hc | ⟨m0, hexp, hpq⟩
    · have hsr : childVisitSum t = childVisitSum root := by
        rw [cvs_eq_cvm, cvs_eq_cvm, hc]
      have hkr : keysOf t = keysOf root := by
        rw [keysOf_eq_cvm, keysOf_eq_cvm, hc]
      exact ⟨hbb.1.trans hb, hbb.2.1.trans htn, WF_backprop rs (m :: rest) t hwft,
        by rw [hsumbp, hsr], Or.inl (hkeysbp.trans hkr)⟩
    · injection hpq with hm0 hrest
      subst hm0
      subst hrest
      obtain ⟨ps, p, c, hg, hf, hmv, hnone, hteq, hcv, hcc⟩ :=
        expandN_spec root t m hexp
      have hkt : keysOf t = keysOf root ++ [m] := by
        rw [hteq]
        show (root.children ++ [(m, c)]).map Prod.fst = _
        rw [List.map_append]
        rfl
      have hst : childVisitSum t = childVisitSum root := by
        rw [hteq]
        show ((root.children ++ [(m, c)]).map (fun mc => mc.2.visits)).sum = _
        rw [List.map_append, List.sum_append]
        simp [childVisitSum, hcv]
      refine ⟨hbb.1.trans hb, hbb.2.1.trans htn, WF_backprop rs (m :: []) t hwft,
        by rw [hsumbp, hst], Or.inr ⟨ps, p, hg, hf, ?_⟩⟩
      rw [hkeysbp, hkt, hmv]

/-- The running invariant of `monteCarloTreeSearch`'s simulation loop on a
non-terminal starting board: after `n` completed iterations the root still
carries the starting board and the agent's tile, the tree is well formed,
the root children's visit counts sum to exactly `n`, and the expanded root
children are precisely the first however-many legal moves in column order. -/
theorem mctsRun_spec (choose : MCNode → Move) (po : Nat → Int) (mTile : Tile)
    (b : Board) (hb : (evaluate b).1 = none) :
    ∀ (n : Nat) (root : MCNode), mctsRun choose po mTile b n = some root →
    root.board = b ∧ root.turn = mTile ∧ WF root ∧ childVisitSum root = n ∧
    ∃ ps, generateValidPositions b = some ps ∧
      keysOf root = (ps.take (keysOf root).length).map
        (fun q => (⟨q, mTile⟩ : Move)) := by
  intro n
  induction n with
  | zero =>
    intro root h
    replace h : mkNode mTile b = some root := h
    unfold mkNode at h
    cases hg : generateValidPositions b with
    | none => rw [hg] at h; cases h
    | some ps =>
      rw [hg] at h
      simp only [Option.map_some', Option.some.injEq] at h
      subst h
      refine ⟨rfl, rfl, WF.mk _ _ _ _ _ _ (by simp) ?_, rfl, ps, rfl, rfl⟩
      intro mc hmc
      cases hmc
  | succ n ihn =>
    intro root h
    replace h : (mctsRun choose po mTile b n).bind
        (mctsStep choose (po n * mTile.val)) = some root := h
    cases hr : mctsRun choose po mTile b n with
    | none => rw [hr] at h; cases h
    | some r =>
      rw [hr] at h
      replace h : mctsStep choose (po n * mTile.val) r = some root := h
      obtain ⟨hb1, ht1, hwf1, hsum1, ps1, hg1, hkeys1⟩ := ihn r hr
      have hterm : (evaluate r.board).1.isSome = false := by
        rw [hb1, hb]
        rfl
      obtain ⟨hb2, ht2, hwf2, hsum2, hkeys2⟩ :=
        mctsStep_spec choose (po n * mTile.val) r root hterm hwf1 h
      refine ⟨hb2.trans hb1, ht2.trans ht1, hwf2, by rw [hsum2, hsum1], ?_⟩
      rcases hkeys2 with hk | ⟨ps, p, hg, hf, hk⟩
      · refine ⟨ps1, hg1, ?_⟩
        rw [hk]
        exact hkeys1
      · rw [hb1, hg1] at hg
        injection hg with hps
        subst hps
        have hnd : ps1.Nodup := genPositions_nodup b ps1 hg1
        have hkch : r.children.map Prod.fst =
            (ps1.take (keysOf r).length).map (fun q => (⟨q, mTile⟩ : Move)) := hkeys1
        rw [ht1] at hf hk
        have hext := find_first_missing ps1 mTile r.children (keysOf r).length
          hnd hkch p hf
        refine ⟨ps1, hg1, ?_⟩
        rw [hk, List.length_append, List.length_singleton]
        exact hext

/-- The final selection loop lifted to `(move, visits)` pairs: keep the
first entry whose count strictly exceeds the running maximum. -/
def selVisits (cs : List (Move × Nat)) (init : Move × Nat) : Move × Nat :=
  cs.foldl (fun acc mn => if mn.2 > acc.2 then mn else acc) init

/-- The source's selection fold reads nothing but each child's move and
visit count. -/
theorem selFold_eq_selVisits : ∀ (cs : List (Move × MCNode)) (init : Move × Nat),
    selFold cs init = selVisits (cs.map (fun mc => (mc.1, mc.2.visits))) init := by
  intro cs
  induction cs with
  | nil =>
    intro init
    rfl
  | cons hd tl ih =>
    intro init
    show selFold tl (if hd.2.visits > init.2 then (hd.1, hd.2.visits) else init) =
      selVisits (tl.map (fun mc => (mc.1, mc.2.visits)))
        (if hd.2.visits > init.2 then (hd.1, hd.2.visits) else init)
    exact ih _

/-- The selection fold keeps `init` when no entry strictly beats it;
otherwise it returns the first entry attaining the maximal count: everything
before it counts strictly less, everything after it counts no more. -/
theorem selVisits_spec : ∀ (cs : List (Move × Nat)) (init : Move × Nat),
    (selVisits cs init = init ∧ ∀ q ∈ cs, q.2 ≤ init.2) ∨
    (∃ l1 mc l2, cs = l1 ++ mc :: l2 ∧ selVisits cs init = mc ∧
      init.2 < mc.2 ∧ (∀ q ∈ l1, q.2 < mc.2) ∧ (∀ q ∈ l2, q.2 ≤ mc.2)) := by
  intro cs
  induction cs with
  | nil =>
    intro init
    exact Or.inl ⟨rfl, fun q hq => absurd hq (List.not_mem_nil q)⟩
  | cons hd tl ih =>
    intro init
    by_cases hgt : hd.2 > init.2
    · have hstep : selVisits (hd :: tl) init = selVisits tl hd := by
        show selVisits tl (if hd.2 > init.2 then hd else init) = _
        rw [if_pos hgt]
      rcases ih hd with ⟨heq, hall⟩ | ⟨l1, mc, l2, htl, heq, hlt, hbef, haft⟩
      · refine Or.inr ⟨[], hd, tl, rfl, hstep.trans heq, hgt, ?_, hall⟩
        intro q hq
        cases hq
      · refine Or.inr ⟨hd :: l1, mc, l2, by rw [htl, List.cons_append], hstep.trans heq,
          lt_trans hgt hlt, ?_, haft⟩
        intro q hq
        rcases List.mem_cons.1 hq with rfl | hq2
        · exact hlt
        · exact hbef q hq2
    · have hstep : selVisits (hd :: tl) init = selVisits tl init := by
        show selVisits tl (if hd.2 > init.2 then hd else init) = _
        rw [if_neg hgt]
      rcases ih init with ⟨heq, hall⟩ | ⟨l1, mc, l2, htl, heq, hlt, hbef, haft⟩
      · refine Or.inl ⟨hstep.trans heq, ?_⟩
        intro q hq
        rcases List.mem_cons.1 hq with rfl | hq2
        · exact not_lt.1 hgt
        · exact hall q hq2
      · refine Or.inr ⟨hd :: l1, mc, l2, by rw [htl, List.cons_append], hstep.trans heq, hlt,
          ?_, haft⟩
        intro q hq
        rcases List.mem_cons.1 hq with rfl | hq2
        · exact lt_of_le_of_lt (not_lt.1 hgt) hlt
        · exact hbef q hq2

/-- The `(move, visits)` pairs of a children enumeration, in the order the
enumeration hands them out. -/
def iterPairs (cs : List (Move × MCNode)) : List (Move × Nat) :=
  cs.map (fun mc => (mc.1, mc.2.visits))

theorem cvm_eq_iterPairs (n : MCNode) : cvm n = iterPairs n.children := rfl

/-- The returned move depends only on the `(move, visits)` pairs of the
children enumeration it is handed. -/
theorem selectBest_eq (cs : List (Move × MCNode)) :
    selectBest cs = (selVisits (iterPairs cs) (cppDefaultMove, 0)).1 := by
  unfold selectBest iterPairs
  rw [selFold_eq_selVisits]

/-- The UCT stand-in used to exercise the search on a concrete input: pick
the first expanded child (the default move on a childless node). -/
def chooseW : MCNode → Move := fun n =>
  match n.children with
  | [] => cppDefaultMove
  | mc :: _ => mc.1

/-- The playout stand-in used on the concrete input: every playout reports
a win for Positive. -/
def poW : Nat → Int := fun _ => 1

/-- A concrete non-terminal starting board: a single Positive piece at
`(0, 5)` (so the generator completes without its undefined read). -/
def bW : Board := ⟨6, 7, 1 <<< 35, 0⟩

/-- The root as built by the `MonteCarloNode` constructor on `bW`. -/
def root0W : MCNode := .mk bW .Positive 0 0 7 []

/-- The move the first simulation expands on `bW`: column 0's drop target. -/
def mWit : Move := ⟨⟨0, 4⟩, .Positive⟩

/-- The child created by that expansion, before backpropagation. -/
def childW : MCNode :=
  .mk ⟨6, 7, (1 <<< 35) ||| (1 <<< 28), 0⟩ .Negative 0 0 7 []

/-- The tree right after the expansion, before backpropagation. -/
def n2W : MCNode := .mk bW .Positive 0 0 7 [(mWit, childW)]

/-- The tree after one full simulation (expansion plus backpropagation). -/
def rootW : MCNode :=
  .mk bW .Positive 1 1 7
    [(mWit, .mk ⟨6, 7, (1 <<< 35) ||| (1 <<< 28), 0⟩ .Negative 1 1 7 [])]

/-- One concrete iteration of the simulation loop, evaluated end to end. -/
theorem mctsRunW_eq : mctsRun chooseW poW .Positive bW 1 = some rootW := by
  have htr : traverseE chooseW root0W = some (n2W, [mWit]) := by
    rw [traverseE.eq_def]
    rfl
  show (mctsRun chooseW poW .Positive bW 0).bind
    (mctsStep chooseW (poW 0 * Tile.val .Positive)) = some rootW
  have h0 : mctsRun chooseW poW .Positive bW 0 = some root0W := rfl
  rw [h0]
  show mctsStep chooseW (poW 0 * Tile.val .Positive) root0W = some rootW
  unfold mctsStep
  rw [htr]
  rfl

/-- A nontrivial admissible iteration order used on the concrete inputs:
enumerate the map's entries in reverse of the bookkeeping order (libstdc++'s
head-insertion makes roughly this order typical in practice). -/
def ordW : List (Move × MCNode) → List (Move × MCNode) := fun cs => cs.reverse

/-- The move the second simulation expands on `bW`: column 1's drop
target. -/
def m2W : Move := ⟨⟨1, 5⟩, .Positive⟩

/-- The child created by the second expansion, before backpropagation. -/
def child2W : MCNode :=
  .mk ⟨6, 7, (1 <<< 35) ||| (1 <<< 36), 0⟩ .Negative 0 0 7 []

/-- The tree right after the second expansion, before backpropagation. -/
def n3W : MCNode :=
  .mk bW .Positive 1 1 7
    [(mWit, .mk ⟨6, 7, (1 <<< 35) ||| (1 <<< 28), 0⟩ .Negative 1 1 7 []),
     (m2W, child2W)]

/-- The tree after two full simulations: two expanded children, one visit
each — the map's contents hold a genuine visit-count tie. -/
def rootW2 : MCNode :=
  .mk bW .Positive 2 2 7
    [(mWit, .mk ⟨6, 7, (1 <<< 35) ||| (1 <<< 28), 0⟩ .Negative 1 1 7 []),
     (m2W, .mk ⟨6, 7, (1 <<< 35) ||| (1 <<< 36), 0⟩ .Negative 1 1 7 [])]

/-- Two concrete iterations of the simulation loop, evaluated end to end. -/
theorem mctsRun2W_eq : mctsRun chooseW poW .Positive bW 2 = some rootW2 := by
  have htr : traverseE chooseW rootW = some (n3W, [m2W]) := by
    rw [traverseE.eq_def]
    rfl
  show (mctsRun chooseW poW .Positive bW 1).bind
    (mctsStep chooseW (poW 1 * Tile.val .Positive)) = some rootW2
  rw [mctsRunW_eq]
  show mctsStep chooseW (poW 1 * Tile.val .Positive) rootW = some rootW2
  unfold mctsStep
  rw [htr]
  rfl

/-- **C7, counterexample.**  Two simulations from `bW` leave two root
children tied at one visit each; the selection loop's result then depends on
the `unordered_map`'s iteration order, which the standard leaves
unspecified: enumerating the contents one way returns column 0's move,
enumerating the same contents the other way returns column 1's move.  So
"ties return the first-found move in column order" is not a guarantee of the
program but an artifact of fixing one iteration order. -/
theorem mcts_final_selection_cex :
    mctsRun chooseW poW .Positive bW 2 = some rootW2 ∧
    rootW2.children.reverse.Perm rootW2.children ∧
    (∀ mc ∈ rootW2.children, mc.2.visits = 1) ∧
    selectBest rootW2.children = mWit ∧
    selectBest rootW2.children.reverse = m2W ∧
    mWit ≠ m2W :=
  ⟨mctsRun2W_eq, List.reverse_perm _, by decide, rfl, rfl, by decide⟩

/-- **C7, amended.**  After the simulation budget `n ≥ 1` is exhausted (and
the run completed), `monteCarloTreeSearch` returns the move of a root child
whose visit count is maximal among all expanded root children, whatever
iteration order the `unordered_map` hands the selection loop — namely the
first child *in that enumeration order* that attains the maximum — and the
selection reads only the children's moves and visit counts, never their win
totals.  Since the container's iteration order is unspecified, ties are
broken by that unspecified order, not by column order. -/
theorem mcts_final_selection (choose : MCNode → Move) (po : Nat → Int)
    (ord : List (Move × MCNode) → List (Move × MCNode)) (mTile : Tile)
    (b : Board) (n : Nat) (root : MCNode)
    (hb : (evaluate b).1 = none) (hn : 0 < n)
    (hrun : mctsRun choose po mTile b n = some root)
    (hperm : (ord root.children).Perm root.children) :
    monteCarloTreeSearchModel choose po ord mTile b n =
      some (selectBest (ord root.children)) ∧
    (∃ l1 mc l2, iterPairs (ord root.children) = l1 ++ mc :: l2 ∧
      selectBest (ord root.children) = mc.1 ∧ 0 < mc.2 ∧
      (∀ q ∈ l1, q.2 < mc.2) ∧ (∀ q ∈ l2, q.2 ≤ mc.2)) ∧
    (∀ cs2 : List (Move × MCNode),
      iterPairs cs2 = iterPairs (ord root.children) →
      selectBest cs2 = selectBest (ord root.children)) := by
  obtain ⟨hbr, htr, hwf, hsum, ps, hg, hkeys⟩ :=
    mctsRun_spec choose po mTile b hb n root hrun
  have hpp : (iterPairs (ord root.children)).Perm (cvm root) := by
    rw [cvm_eq_iterPairs]
    exact hperm.map (fun mc => (mc.1, mc.2.visits))
  have hsump : ((iterPairs (ord root.children)).map Prod.snd).sum =
      childVisitSum root := by
    rw [(hpp.map Prod.snd).sum_eq, ← cvs_eq_cvm]
  refine ⟨?_, ?_, ?_⟩
  · unfold monteCarloTreeSearchModel
    rw [hrun]
    rfl
  · rcases selVisits_spec (iterPairs (ord root.children)) (cppDefaultMove, 0) with
      ⟨heq, hall⟩ | ⟨l1, mc, l2, hsplit, heq, hpos, hbef, haft⟩
    · exfalso
      have hzero : ((iterPairs (ord root.children)).map Prod.snd).sum = 0 := by
        apply List.sum_eq_zero
        intro x hx
        obtain ⟨q, hq, hqx⟩ := List.mem_map.1 hx
        have hq0 : q.2 ≤ 0 := hall q hq
        omega
      rw [hsump, hsum] at hzero
      omega
    · refine ⟨l1, mc, l2, hsplit, ?_, hpos, hbef, haft⟩
      rw [selectBest_eq, heq]
  · intro cs2 h2
    rw [selectBest_eq, selectBest_eq, h2]

/-- Witness for the amended C7 at the concrete input: one simulation from
`bW` under the reversed iteration order; the single expanded child (column
0) is the selected move. -/
theorem mcts_final_selection_witness :
    monteCarloTreeSearchModel chooseW poW ordW .Positive bW 1 =
      some (selectBest (ordW rootW.children)) ∧
    (∃ l1 mc l2, iterPairs (ordW rootW.children) = l1 ++ mc :: l2 ∧
      selectBest (ordW rootW.children) = mc.1 ∧ 0 < mc.2 ∧
      (∀ q ∈ l1, q.2 < mc.2) ∧ (∀ q ∈ l2, q.2 ≤ mc.2)) ∧
    (∀ cs2 : List (Move × MCNode),
      iterPairs cs2 = iterPairs (ordW rootW.children) →
      selectBest cs2 = selectBest (ordW rootW.children)) :=
  mcts_final_selection chooseW poW ordW .Positive bW 1 rootW (by decide)
    (by decide) mctsRunW_eq (List.reverse_perm _)

/-- **C8, counterexample.**  The all-empty board is non-terminal, yet the
search cannot run any number of iterations from it: already the root's
constructor performs the generator's out-of-bounds `res.back()` read, so no
tree (and no visit-count sum) exists — the claim's unconditional
quantification over every non-terminal starting board fails. -/
theorem mcts_visit_sum_cex :
    (evaluate (⟨6, 7, 0, 0⟩ : Board)).1 = none ∧
    mctsRun chooseW poW .Positive ⟨6, 7, 0, 0⟩ 0 = none :=
  ⟨by decide, by rfl⟩

/-- **C8, amended.**  For every non-terminal starting board on which the
`n`-iteration simulation loop completes (none of its generator calls hits the
out-of-bounds read), the visit counts of the root's expanded children sum to
exactly `n`: each iteration backpropagates through exactly one root child. -/
theorem mcts_visit_sum (choose : MCNode → Move) (po : Nat → Int) (mTile : Tile)
    (b : Board) (n : Nat) (root : MCNode)
    (hb : (evaluate b).1 = none)
    (hrun : mctsRun choose po mTile b n = some root) :
    childVisitSum root = n :=
  (mctsRun_spec choose po mTile b hb n root hrun).2.2.2.1

/-- Witness for the amended C8 at the concrete input: after one simulation
from `bW` the root's only child holds the full visit count 1. -/
theorem mcts_visit_sum_witness : childVisitSum rootW = 1 :=
  mcts_visit_sum chooseW poW .Positive bW 1 rootW (by decide) mctsRunW_eq

end ConnectN
